import Mathlib

/-!
# Datastore configuration validation (`config/validate.go`)

A shallow embedding of the recursive validator of datastore configuration
trees, and theorems about it.

* Go `interface{}` values are the inductive type `Value`; a
  `map[string]interface{}` is an association list read with `index`
  (a missing key reads as `nil`, like indexing a Go map).
* The `*validatorContext` that Go mutates in place is threaded explicitly:
  every validator returns the error (`none` is Go's `nil` error) together
  with the context as it is left after the call. A second rendering
  (`validateAt`, `ValidateAt`) passes the context by address in an explicit
  memory; `validateAt_eq` shows that the two agree.
* Go `error` values are the inductive type `Error`; `Error.message` gives the
  text of each one.
-/

namespace Config

/-! ## Data model -/

/-- Dynamically typed configuration values (Go `interface{}`): the shapes the
validator tells apart (string, sequence, map) and the scalars it rejects. -/
inductive Value where
  | null
  | bool (b : Bool)
  | num (n : Int)
  | str (s : String)
  | seq (items : List Value)
  | map (fields : List (String × Value))

/-- Configuration node: Go `map[string]interface{}`. -/
abbrev Node := List (String × Value)

/-- Go map indexing `m[k]`: the value stored under `k`, `nil` when absent. -/
def index (m : Node) (k : String) : Value :=
  match m.lookup k with
  | some v => v
  | none => Value.null

/-- Type assertion `v.(string)`. -/
def Value.asString : Value → Option String
  | Value.str s => some s
  | _ => none

/-- Type assertion `v.([]interface{})`. -/
def Value.asSeq : Value → Option (List Value)
  | Value.seq items => some items
  | _ => none

/-- Type assertion `v.(map[string]interface{})`. -/
def Value.asMap : Value → Option Node
  | Value.map fields => some fields
  | _ => none

/-- Error values returned by the validators, one constructor per `errors.New` /
`fmt.Errorf` site of the source (and the package variable `ErrInvalidType`). -/
inductive Error where
  | ErrInvalidType
  | unsupportedType (t : String)
  | invalidPathType
  | pathInUse (path : String)
  | invalidCompression
  | invalidMounts
  | invalidMountsEntry
  | invalidMountPoint
  | multipleMounts
  | invalidPrefix
  | invalidChild
  deriving DecidableEq, Repr

/-- Text of an error, as built by `errors.New` / `fmt.Errorf` in the source. -/
def Error.message : Error → String
  | Error.ErrInvalidType => "invalid type entry in config"
  | Error.unsupportedType t => "unsupported type entry in config: " ++ t
  | Error.invalidPathType => "invalid 'path' type in flatfs datastore"
  | Error.pathInUse path => "Path '" ++ path ++ "' is already in use"
  | Error.invalidCompression => "invalid 'compression' type in levelds datastore"
  | Error.invalidMounts => "invalid 'mounts' in mount datastore"
  | Error.invalidMountsEntry => "mounts entry has invalid type"
  | Error.invalidMountPoint => "'mountpoint' must be a string"
  | Error.multipleMounts => "multiple mounts under one path are not allowed"
  | Error.invalidPrefix => "invalid 'prefix' in measure datastore"
  | Error.invalidChild => "child of measure datastore has invalid type"

/-- The `validatorContext` struct: `usedPaths` is the set of keys of the Go
`map[string]bool` (only `true` is ever stored), most recent first. -/
structure validatorContext where
  usedPaths : List String
  deriving DecidableEq, Repr

/-- Result of a validator call: the returned `error` (`none` for `nil`) and the
context after the call. -/
abbrev Result := Option Error × validatorContext

/-- Names of the validator functions stored in the registry. -/
inductive Validator where
  | badgerdsValidator
  | flatfsValidator
  | leveldsValidator
  | measureValidator
  | mountValidator
  deriving DecidableEq, Repr

/-- The `validators` registry after `init()`: `none` is the `nil` function
value obtained for an unregistered name. -/
def validators (t : String) : Option Validator :=
  if t = "badgerds" then some Validator.badgerdsValidator
  else if t = "flatfs" then some Validator.flatfsValidator
  else if t = "levelds" then some Validator.leveldsValidator
  else if t = "measure" then some Validator.measureValidator
  else if t = "mount" then some Validator.mountValidator
  else none

/-! ## Leaf validators -/

/-- `checkPath`: the value must be a string not yet claimed; it is then
recorded in `usedPaths`. -/
def checkPath (ctx : validatorContext) (p : Value) : Result :=
  match p.asString with
  | none => (some Error.invalidPathType, ctx)
  | some path =>
    if path ∈ ctx.usedPaths then (some (Error.pathInUse path), ctx)
    else (none, { ctx with usedPaths := path :: ctx.usedPaths })

/-- `flatfsValidator`. -/
def flatfsValidator (ctx : validatorContext) (dsConfiguration : Node) : Result :=
  match checkPath ctx (index dsConfiguration "path") with
  | (some err, ctx1) => (some err, ctx1)
  | (none, ctx1) => (none, ctx1)

/-- `leveldsValidator`. -/
def leveldsValidator (ctx : validatorContext) (dsConfiguration : Node) : Result :=
  match checkPath ctx (index dsConfiguration "path") with
  | (some err, ctx1) => (some err, ctx1)
  | (none, ctx1) =>
    match (index dsConfiguration "compression").asString with
    | none => (some Error.invalidCompression, ctx1)
    | some _ => (none, ctx1)

/-- `badgerdsValidator`. -/
def badgerdsValidator (ctx : validatorContext) (dsConfiguration : Node) : Result :=
  match checkPath ctx (index dsConfiguration "path") with
  | (some err, ctx1) => (some err, ctx1)
  | (none, ctx1) => (none, ctx1)

/-! ## Size facts used for termination -/

theorem sizeOf_lookup_lt (m : Node) (k : String) (v : Value)
    (h : m.lookup k = some v) : sizeOf v < sizeOf m := by
  induction m with
  | nil => simp [List.lookup] at h
  | cons kv rest ih =>
    obtain ⟨k1, v1⟩ := kv
    simp only [List.lookup] at h
    split at h
    · cases h
      simp
      omega
    · have := ih h
      simp
      omega

theorem sizeOf_index_asSeq (m : Node) (k : String) (items : List Value)
    (h : (index m k).asSeq = some items) : sizeOf items < sizeOf m := by
  unfold index at h
  split at h
  · rename_i v hv
    have := sizeOf_lookup_lt m k v hv
    cases v <;> simp [Value.asSeq] at h
    subst h
    simp at this
    omega
  · simp [Value.asSeq] at h

theorem sizeOf_index_asMap (m : Node) (k : String) (child : Node)
    (h : (index m k).asMap = some child) : sizeOf child < sizeOf m := by
  unfold index at h
  split at h
  · rename_i v hv
    have := sizeOf_lookup_lt m k v hv
    cases v <;> simp [Value.asMap] at h
    subst h
    simp at this
    omega
  · simp [Value.asMap] at h

theorem sizeOf_asMap (v : Value) (mount : Node)
    (h : v.asMap = some mount) : sizeOf mount < sizeOf v := by
  cases v <;> simp [Value.asMap] at h
  subst h
  simp

/-! ## The recursive engine -/

mutual

/-- `validate`: dispatch on the `type` field through the registry. -/
def validate (ctx : validatorContext) (dsConfiguration : Node) : Result :=
  match (index dsConfiguration "type").asString with
  | none => (some Error.ErrInvalidType, ctx)
  | some t =>
    match validators t with
    | none => (some (Error.unsupportedType t), ctx)
    | some Validator.badgerdsValidator => badgerdsValidator ctx dsConfiguration
    | some Validator.flatfsValidator => flatfsValidator ctx dsConfiguration
    | some Validator.leveldsValidator => leveldsValidator ctx dsConfiguration
    | some Validator.measureValidator => measureValidator ctx dsConfiguration
    | some Validator.mountValidator => mountValidator ctx dsConfiguration
termination_by (sizeOf dsConfiguration, 2)

/-- `mountValidator`: `mounts` must be a sequence; the loop starts with an
empty local `mountPoints` set. -/
def mountValidator (ctx : validatorContext) (dsConfiguration : Node) : Result :=
  match h : (index dsConfiguration "mounts").asSeq with
  | none => (some Error.invalidMounts, ctx)
  | some mounts =>
    have : sizeOf mounts < sizeOf dsConfiguration :=
      sizeOf_index_asSeq dsConfiguration "mounts" mounts h
    mountLoop ctx [] mounts
termination_by (sizeOf dsConfiguration, 1)

/-- The `for _, m := range mounts` loop of `mountValidator`, on the entries
still to visit, with the current context and local `mountPoints` set. -/
def mountLoop (ctx : validatorContext) (mountPoints : List String)
    (mounts : List Value) : Result :=
  match mounts with
  | [] => (none, ctx)
  | m :: rest =>
    match h : m.asMap with
    | none => (some Error.invalidMountsEntry, ctx)
    | some mount =>
      match (index mount "mountpoint").asString with
      | none => (some Error.invalidMountPoint, ctx)
      | some mountPoint =>
        if mountPoint ∈ mountPoints then (some Error.multipleMounts, ctx)
        else
          have : sizeOf mount < sizeOf m := sizeOf_asMap m mount h
          match validate ctx mount with
          | (some err, ctx1) => (some err, ctx1)
          | (none, ctx1) => mountLoop ctx1 (mountPoint :: mountPoints) rest
termination_by (sizeOf mounts, 0)

/-- `measureValidator`: string `prefix`, map `child`, then the child. -/
def measureValidator (ctx : validatorContext) (dsConfiguration : Node) : Result :=
  match (index dsConfiguration "prefix").asString with
  | none => (some Error.invalidPrefix, ctx)
  | some _ =>
    match h : (index dsConfiguration "child").asMap with
    | none => (some Error.invalidChild, ctx)
    | some child =>
      have : sizeOf child < sizeOf dsConfiguration :=
        sizeOf_index_asMap dsConfiguration "child" child h
      validate ctx child
termination_by (sizeOf dsConfiguration, 1)

end

/-- `Validate`: a fresh context with no claimed path, then `validate`; only the
error is returned to the caller. -/
def Validate (dsConfiguration : Node) : Option Error :=
  (validate { usedPaths := [] } dsConfiguration).1

/-! ## Vocabulary of the specification

The notions the specification speaks with: the leaf nodes of a configuration
tree and their `path` values, the nodes of the tree, and the shape a node
must have. They are defined on the tree alone, independently of `validate`. -/

/-- The `path` declared by a node: its `path` field when that is a string. -/
def declaredPath (cfg : Node) : List String :=
  match (index cfg "path").asString with
  | none => []
  | some p => [p]

mutual

/-- The `path` strings declared by the leaf nodes (badgerds, flatfs, levelds)
of the tree below `cfg`, in depth-first order, one item per leaf node. The
tree is the root, the map entries of the `mounts` of every mount node and the
map `child` of every measure node. -/
def leafPaths (cfg : Node) : List String :=
  match (index cfg "type").asString with
  | none => []
  | some t =>
    if t = "badgerds" ∨ t = "flatfs" ∨ t = "levelds" then declaredPath cfg
    else if t = "measure" then
      match h : (index cfg "child").asMap with
      | none => []
      | some child =>
        have : sizeOf child < sizeOf cfg := sizeOf_index_asMap cfg "child" child h
        leafPaths child
    else if t = "mount" then
      match h : (index cfg "mounts").asSeq with
      | none => []
      | some mounts =>
        have : sizeOf mounts < sizeOf cfg := sizeOf_index_asSeq cfg "mounts" mounts h
        leafPathsOfEntries mounts
    else []
termination_by (sizeOf cfg, 1)

/-- Leaf paths of the entries of a `mounts` sequence, in order. -/
def leafPathsOfEntries (mounts : List Value) : List String :=
  match mounts with
  | [] => []
  | m :: rest =>
    (match h : m.asMap with
     | none => []
     | some mount =>
       have : sizeOf mount < sizeOf m := sizeOf_asMap m mount h
       leafPaths mount) ++ leafPathsOfEntries rest
termination_by (sizeOf mounts, 0)

end

/-- The `mountpoint` strings of the direct entries of a `mounts` sequence, in
order (entries that are not maps or have no string `mountpoint` give none). -/
def mountPointsOf : List Value → List String
  | [] => []
  | m :: rest =>
    (match m.asMap with
     | none => []
     | some mount =>
       match (index mount "mountpoint").asString with
       | none => []
       | some mountPoint => [mountPoint]) ++ mountPointsOf rest

/-- Every entry of a `mounts` sequence is a map with a string `mountpoint`. -/
def entriesHaveMountPoint : List Value → Bool
  | [] => true
  | m :: rest =>
    (match m.asMap with
     | none => false
     | some mount => ((index mount "mountpoint").asString).isSome)
      && entriesHaveMountPoint rest

mutual

/-- Shape of a configuration tree, as the specification words it: every node
of the tree has a string `type` among the five registered names and the
required fields of that type (leaf: string `path`, levelds also string
`compression`; mount: `mounts` is a sequence of maps each with a string
`mountpoint`, these being pairwise distinct; measure: string `prefix` and map
`child`), and so have the entries of a mount node and the child of a measure
node. -/
def wellShaped (cfg : Node) : Bool :=
  match (index cfg "type").asString with
  | none => false
  | some t =>
    if t = "badgerds" ∨ t = "flatfs" then ((index cfg "path").asString).isSome
    else if t = "levelds" then
      ((index cfg "path").asString).isSome && ((index cfg "compression").asString).isSome
    else if t = "measure" then
      ((index cfg "prefix").asString).isSome &&
        (match h : (index cfg "child").asMap with
         | none => false
         | some child =>
           have : sizeOf child < sizeOf cfg := sizeOf_index_asMap cfg "child" child h
           wellShaped child)
    else if t = "mount" then
      match h : (index cfg "mounts").asSeq with
      | none => false
      | some mounts =>
        have : sizeOf mounts < sizeOf cfg := sizeOf_index_asSeq cfg "mounts" mounts h
        entriesHaveMountPoint mounts && decide (mountPointsOf mounts).Nodup
          && wellShapedEntries mounts
    else false
termination_by (sizeOf cfg, 1)

/-- Every map entry of a `mounts` sequence is itself well shaped. -/
def wellShapedEntries (mounts : List Value) : Bool :=
  match mounts with
  | [] => true
  | m :: rest =>
    (match h : m.asMap with
     | none => false
     | some mount =>
       have : sizeOf mount < sizeOf m := sizeOf_asMap m mount h
       wellShaped mount) && wellShapedEntries rest
termination_by (sizeOf mounts, 0)

end

/-- Well-formed configuration tree: well shaped, and the `path` values of all
its leaf nodes are pairwise distinct. -/
def WellFormed (cfg : Node) : Prop :=
  wellShaped cfg = true ∧ (leafPaths cfg).Nodup

/-- Nodes of the tree below a root, as the walk reaches them: the root, the map
entries of the `mounts` of a mount node, the map `child` of a measure node. -/
inductive InTree : Node → Node → Prop where
  | root (n : Node) : InTree n n
  | entry (r : Node) (mounts : List Value) (m n : Node) :
      index r "type" = Value.str "mount" → index r "mounts" = Value.seq mounts →
      Value.map m ∈ mounts → InTree m n → InTree r n
  | child (r c n : Node) :
      index r "type" = Value.str "measure" → index r "child" = Value.map c →
      InTree c n → InTree r n

/-- Outcome of a walk against the tree it walked, in the words of the
specification: `used` are the paths claimed before the walk, `paths` the leaf
paths of the walked tree in order, `shaped` its shape condition, `r` the
returned error and context. The paths claimed during the walk (`visited`) are
put in front of `used`; on success they are all of `paths`, the tree is shaped
and `paths` has no repetition and nothing from `used`; a path-in-use error
names the leaf path that follows `visited` and is already claimed; any other
error means the tree is not shaped. -/
def WalkOK (used paths : List String) (shaped : Prop) (r : Result) : Prop :=
  ∃ visited : List String, r.2.usedPaths = visited.reverse ++ used ∧
    (r.1 = none → visited = paths ∧ shaped ∧ paths.Nodup ∧ ∀ p ∈ paths, p ∉ used) ∧
    (∀ p, r.1 = some (Error.pathInUse p) →
      (visited ++ [p]) <+: paths ∧ p ∈ visited.reverse ++ used) ∧
    (∀ e, r.1 = some e → visited <+: paths ∧ ((∀ p, e ≠ Error.pathInUse p) → ¬ shaped))

/-- Shape condition of the entries still to visit in a mount loop whose local
set already holds `mountPoints`. -/
def ShapedEntries (mountPoints : List String) (mounts : List Value) : Prop :=
  entriesHaveMountPoint mounts = true ∧ (mountPointsOf mounts).Nodup ∧
    (∀ x ∈ mountPointsOf mounts, x ∉ mountPoints) ∧ wellShapedEntries mounts = true

/-- Leaf node: its `type` is badgerds, flatfs or levelds. -/
def isLeaf (n : Node) : Prop :=
  index n "type" = Value.str "badgerds" ∨ index n "type" = Value.str "flatfs" ∨
    index n "type" = Value.str "levelds"

/-- The condition on a single node `n` under which each error is raised (the
error taxonomy of the specification, read on one node of the tree). -/
def RaisedAt (n : Node) : Error → Prop
  | Error.ErrInvalidType => (index n "type").asString = none
  | Error.unsupportedType t =>
    index n "type" = Value.str t ∧
      t ∉ ["badgerds", "flatfs", "levelds", "measure", "mount"]
  | Error.invalidPathType => isLeaf n ∧ (index n "path").asString = none
  | Error.pathInUse p => isLeaf n ∧ index n "path" = Value.str p
  | Error.invalidCompression =>
    index n "type" = Value.str "levelds" ∧ (index n "compression").asString = none
  | Error.invalidMounts =>
    index n "type" = Value.str "mount" ∧ (index n "mounts").asSeq = none
  | Error.invalidMountsEntry =>
    index n "type" = Value.str "mount" ∧
      ∃ ms m, index n "mounts" = Value.seq ms ∧ m ∈ ms ∧ m.asMap = none
  | Error.invalidMountPoint =>
    index n "type" = Value.str "mount" ∧
      ∃ ms mount, index n "mounts" = Value.seq ms ∧ Value.map mount ∈ ms ∧
        (index mount "mountpoint").asString = none
  | Error.multipleMounts =>
    index n "type" = Value.str "mount" ∧
      ∃ ms, index n "mounts" = Value.seq ms ∧ ¬ (mountPointsOf ms).Nodup
  | Error.invalidPrefix =>
    index n "type" = Value.str "measure" ∧ (index n "prefix").asString = none
  | Error.invalidChild =>
    index n "type" = Value.str "measure" ∧ (index n "child").asMap = none

/-! ## Example configurations

The concrete scenarios of the specification (with the registered type names
`flatfs`, `levelds`, `badgerds` for flat-file, level-style, badger-style) and
a few more trees used as inputs below. -/

/-- A flatfs node with the given `path`, carrying the `mountpoint` under which
it is mounted. -/
def flatfsEntry (path mountPoint : String) : Value :=
  Value.map [("type", Value.str "flatfs"), ("path", Value.str path),
    ("mountpoint", Value.str mountPoint)]

/-- A mount node with the given entries. -/
def mountOf (entries : List Value) : Node :=
  [("type", Value.str "mount"), ("mounts", Value.seq entries)]

/-- Scenario 1: a flatfs node with a path. -/
def scenario1 : Node := [("type", Value.str "flatfs"), ("path", Value.str "/data/a")]

/-- Scenario 2: a flatfs node without path. -/
def scenario2 : Node := [("type", Value.str "flatfs")]

/-- Scenario 3: a levelds node without compression. -/
def scenario3 : Node := [("type", Value.str "levelds"), ("path", Value.str "/data/a")]

/-- Scenario 4: two mounts of the same path under different mount points. -/
def scenario4 : Node := mountOf [flatfsEntry "/a" "/x", flatfsEntry "/a" "/y"]

/-- Scenario 5: two mounts of different paths under the same mount point. -/
def scenario5 : Node := mountOf [flatfsEntry "/a" "/x", flatfsEntry "/b" "/x"]

/-- Scenario 6: a measure node around a badgerds node. -/
def scenario6 : Node :=
  [("type", Value.str "measure"), ("prefix", Value.str "m."),
    ("child", Value.map [("type", Value.str "badgerds"), ("path", Value.str "/data/b")])]

/-- Two mounts of the same path under the same mount point. -/
def samePathSameMountPoint : Node := mountOf [flatfsEntry "/a" "/x", flatfsEntry "/a" "/x"]

/-- Three mounts: the second repeats the path of the first, the third repeats
the mount point of the first. -/
def pathThenMountPoint : Node :=
  mountOf [flatfsEntry "/a" "/x", flatfsEntry "/a" "/y", flatfsEntry "/b" "/x"]

/-- A mount node mounted at `/x` in a mount node, itself mounting a flatfs node
at `/x`: the nested mount reuses the mount point of its parent. -/
def nestedReuse : Node :=
  mountOf [Value.map [("type", Value.str "mount"), ("mountpoint", Value.str "/x"),
    ("mounts", Value.seq [flatfsEntry "/a" "/x"])]]

/-- Scenario 4 followed by one more entry. -/
def scenario4Extended : Node :=
  mountOf [flatfsEntry "/a" "/x", flatfsEntry "/a" "/y", flatfsEntry "/b" "/z"]

/-! ## Further vocabulary

Texts of errors, the sub-node relation and the assignment of a field, used by
the properties on error texts, termination and unknown fields. -/

/-- The text `msg` contains the text `s`. -/
def Mentions (msg s : String) : Prop :=
  ∃ before after : String, msg = before ++ s ++ after

/-- Direct sub-node: `a` is the map `child` of `b` or a map entry of the
`mounts` of `b`. These are the nodes on which the validators of `b` call
`validate`. -/
def Subnode (a b : Node) : Prop :=
  (index b "child").asMap = some a ∨
    ∃ ms, (index b "mounts").asSeq = some ms ∧ Value.map a ∈ ms

/-- Go map assignment `n[k] = v`: the entry for `k` is replaced, or added. -/
def setField (n : Node) (k : String) (v : Value) : Node :=
  (k, v) :: n.filter (fun kv => kv.1 != k)

/-- The tree `t1` is the tree `t` in which field `k` of one node has been set
to `v`: the node is the root, or lies below the `child` field or below an entry
of the `mounts` field of the root. -/
inductive SetAt (k : String) (v : Value) : Node → Node → Prop where
  | here (n : Node) : SetAt k v n (setField n k v)
  | child (r c c1 : Node) :
      index r "child" = Value.map c → SetAt k v c c1 →
      SetAt k v r (setField r "child" (Value.map c1))
  | entry (r : Node) (pre post : List Value) (m m1 : Node) :
      index r "mounts" = Value.seq (pre ++ Value.map m :: post) → SetAt k v m m1 →
      SetAt k v r (setField r "mounts" (Value.seq (pre ++ Value.map m1 :: post)))

/-- The field names read by the validators. -/
def knownFields : List String :=
  ["type", "path", "compression", "mounts", "mountpoint", "prefix", "child"]

/-! ## More example configurations -/

/-- A measure node with a non-map `child` (a sequence). -/
def measureSeqChild : Node :=
  [("type", Value.str "measure"), ("prefix", Value.str "m."),
    ("child", Value.seq [Value.map [("type", Value.str "flatfs"), ("path", Value.str "/a")]])]

/-- A mount node whose second entry has no `mountpoint` and an unsupported
`type`. -/
def secondEntryNoMountPoint : Node :=
  mountOf [flatfsEntry "/a" "/x", Value.map [("type", Value.str "s3ds")]]

/-- A mount node whose second entry repeats the mount point `/x` and has no
`type`. -/
def secondEntryRepeatsMountPoint : Node :=
  mountOf [flatfsEntry "/a" "/x", Value.map [("mountpoint", Value.str "/x")]]

/-- Scenario 5 with the mount point `/y` in place of `/x`. -/
def scenario5y : Node := mountOf [flatfsEntry "/a" "/y", flatfsEntry "/b" "/y"]

/-- Two mounts of different paths under different mount points. -/
def twoMounts : Node := mountOf [flatfsEntry "/a" "/x", flatfsEntry "/b" "/y"]

/-- The entries of `twoMounts` in the other order. -/
def twoMountsSwapped : Node := mountOf [flatfsEntry "/b" "/y", flatfsEntry "/a" "/x"]

/-! ## The walk without the path-uniqueness check

What the walk meets when the uniqueness of paths is left aside: the leaf paths
declared, in walk order, up to the first failure of another kind, and that
failure. Claiming these paths one after the other then tells whether, and at
which path, the path-in-use error comes first. -/

/-- Claiming the paths `ps` in order on top of the set `used`: the first path
found already claimed, if any, and the claimed set at that point (or after all
of `ps`). -/
def claimAll : List String → List String → Option String × List String
  | used, [] => (none, used)
  | used, p :: ps => if p ∈ used then (some p, used) else claimAll (p :: used) ps

/-- The first item of a list that also occurs earlier in the list. -/
def firstRepeated (ps : List String) : Option String :=
  (claimAll [] ps).1

mutual

/-- The leaf paths declared in walk order up to the first failure other than
path-in-use (wrong or unsupported `type`, missing field, repeated mount
point), and that failure; `none` when there is no such failure. A leaf
declares its `path` before its other fields are looked at. -/
def shapeWalk (cfg : Node) : List String × Option Error :=
  match (index cfg "type").asString with
  | none => ([], some Error.ErrInvalidType)
  | some t =>
    if t = "badgerds" ∨ t = "flatfs" then
      match (index cfg "path").asString with
      | none => ([], some Error.invalidPathType)
      | some p => ([p], none)
    else if t = "levelds" then
      match (index cfg "path").asString with
      | none => ([], some Error.invalidPathType)
      | some p =>
        match (index cfg "compression").asString with
        | none => ([p], some Error.invalidCompression)
        | some _ => ([p], none)
    else if t = "measure" then
      match (index cfg "prefix").asString with
      | none => ([], some Error.invalidPrefix)
      | some _ =>
        match h : (index cfg "child").asMap with
        | none => ([], some Error.invalidChild)
        | some child =>
          have : sizeOf child < sizeOf cfg := sizeOf_index_asMap cfg "child" child h
          shapeWalk child
    else if t = "mount" then
      match h : (index cfg "mounts").asSeq with
      | none => ([], some Error.invalidMounts)
      | some mounts =>
        have : sizeOf mounts < sizeOf cfg := sizeOf_index_asSeq cfg "mounts" mounts h
        shapeWalkEntries [] mounts
    else ([], some (Error.unsupportedType t))
termination_by (sizeOf cfg, 1)

/-- The same for the entries of a `mounts` sequence, `mountPoints` being the
mount points of the entries before them. -/
def shapeWalkEntries (mountPoints : List String) (mounts : List Value) :
    List String × Option Error :=
  match mounts with
  | [] => ([], none)
  | m :: rest =>
    match h : m.asMap with
    | none => ([], some Error.invalidMountsEntry)
    | some mount =>
      match (index mount "mountpoint").asString with
      | none => ([], some Error.invalidMountPoint)
      | some mountPoint =>
        if mountPoint ∈ mountPoints then ([], some Error.multipleMounts)
        else
          have : sizeOf mount < sizeOf m := sizeOf_asMap m mount h
          match shapeWalk mount with
          | (ps, some e) => (ps, some e)
          | (ps, none) =>
            ((ps ++ (shapeWalkEntries (mountPoint :: mountPoints) rest).1),
              (shapeWalkEntries (mountPoint :: mountPoints) rest).2)
termination_by (sizeOf mounts, 0)

end

/-- The result of a walk that meets `sw` (declared paths, then a failure or
none) from the claimed set `used`: the path-in-use error at the first declared
path that is already claimed, else the failure met. -/
def walkResult (used : List String) (sw : List String × Option Error) : Result :=
  match claimAll used sw.1 with
  | (some p, u) => (some (Error.pathInUse p), { usedPaths := u })
  | (none, u) => (sw.2, { usedPaths := u })

/-- Scenario 4 followed by an entry of unsupported type. -/
def scenario4ThenBadType : Node :=
  mountOf [flatfsEntry "/a" "/x", flatfsEntry "/a" "/y",
    Value.map [("type", Value.str "s3ds"), ("mountpoint", Value.str "/z")]]

/-- What `shapeWalk` returns, against the leaf paths of the tree: the declared
paths are the first leaf paths of the tree, all of them when no failure is
met, and the failure met is never the path-in-use error. -/
def ShapeWalkOK (paths : List String) (sw : List String × Option Error) : Prop :=
  sw.1 <+: paths ∧ (sw.2 = none → sw.1 = paths) ∧ ∀ p, sw.2 ≠ some (Error.pathInUse p)

/-! ## The context passed by reference

In the source the validators receive a pointer `ctx *validatorContext` and
update the object it points to; `Validate` allocates that object. Here the
same functions are written over an explicit memory of context objects, to
speak of what a call finds in memory from earlier calls and what it leaves
there. -/

/-- Memory of the process: the context objects allocated so far. `cell`
gives the object at each address, `next` is the first address not yet in
use. -/
structure Memory where
  next : Nat
  cell : Nat → validatorContext

/-- The object at address `ptr`. -/
def Memory.read (mem : Memory) (ptr : Nat) : validatorContext :=
  mem.cell ptr

/-- Update of the object at address `ptr`. -/
def Memory.write (mem : Memory) (ptr : Nat) (c : validatorContext) : Memory :=
  { mem with cell := Function.update mem.cell ptr c }

/-- Allocation of a new object `c`: its address, and the memory holding it. -/
def Memory.alloc (mem : Memory) (c : validatorContext) : Nat × Memory :=
  (mem.next, { next := mem.next + 1, cell := Function.update mem.cell mem.next c })

/-- A memory in which nothing has been allocated. -/
def Memory.empty : Memory :=
  { next := 0, cell := fun _ => { usedPaths := [] } }

/-- `checkPath` with `ctx` a pointer: reads `ctx.usedPaths`, and records the
path in it. -/
def checkPathAt (mem : Memory) (ctx : Nat) (p : Value) : Option Error × Memory :=
  match p.asString with
  | none => (some Error.invalidPathType, mem)
  | some path =>
    if path ∈ (mem.read ctx).usedPaths then (some (Error.pathInUse path), mem)
    else (none, mem.write ctx { usedPaths := path :: (mem.read ctx).usedPaths })

/-- `flatfsValidator` with `ctx` a pointer. -/
def flatfsValidatorAt (mem : Memory) (ctx : Nat) (dsConfiguration : Node) :
    Option Error × Memory :=
  match checkPathAt mem ctx (index dsConfiguration "path") with
  | (some err, mem1) => (some err, mem1)
  | (none, mem1) => (none, mem1)

/-- `leveldsValidator` with `ctx` a pointer. -/
def leveldsValidatorAt (mem : Memory) (ctx : Nat) (dsConfiguration : Node) :
    Option Error × Memory :=
  match checkPathAt mem ctx (index dsConfiguration "path") with
  | (some err, mem1) => (some err, mem1)
  | (none, mem1) =>
    match (index dsConfiguration "compression").asString with
    | none => (some Error.invalidCompression, mem1)
    | some _ => (none, mem1)

/-- `badgerdsValidator` with `ctx` a pointer. -/
def badgerdsValidatorAt (mem : Memory) (ctx : Nat) (dsConfiguration : Node) :
    Option Error × Memory :=
  match checkPathAt mem ctx (index dsConfiguration "path") with
  | (some err, mem1) => (some err, mem1)
  | (none, mem1) => (none, mem1)

mutual

/-- `validate` with `ctx` a pointer. -/
def validateAt (mem : Memory) (ctx : Nat) (dsConfiguration : Node) : Option Error × Memory :=
  match (index dsConfiguration "type").asString with
  | none => (some Error.ErrInvalidType, mem)
  | some t =>
    match validators t with
    | none => (some (Error.unsupportedType t), mem)
    | some Validator.badgerdsValidator => badgerdsValidatorAt mem ctx dsConfiguration
    | some Validator.flatfsValidator => flatfsValidatorAt mem ctx dsConfiguration
    | some Validator.leveldsValidator => leveldsValidatorAt mem ctx dsConfiguration
    | some Validator.measureValidator => measureValidatorAt mem ctx dsConfiguration
    | some Validator.mountValidator => mountValidatorAt mem ctx dsConfiguration
termination_by (sizeOf dsConfiguration, 2)

/-- `mountValidator` with `ctx` a pointer. -/
def mountValidatorAt (mem : Memory) (ctx : Nat) (dsConfiguration : Node) :
    Option Error × Memory :=
  match h : (index dsConfiguration "mounts").asSeq with
  | none => (some Error.invalidMounts, mem)
  | some mounts =>
    have : sizeOf mounts < sizeOf dsConfiguration :=
      sizeOf_index_asSeq dsConfiguration "mounts" mounts h
    mountLoopAt mem ctx [] mounts
termination_by (sizeOf dsConfiguration, 1)

/-- The loop of `mountValidator` with `ctx` a pointer; `mountPoints` is the
local set of the loop. -/
def mountLoopAt (mem : Memory) (ctx : Nat) (mountPoints : List String)
    (mounts : List Value) : Option Error × Memory :=
  match mounts with
  | [] => (none, mem)
  | m :: rest =>
    match h : m.asMap with
    | none => (some Error.invalidMountsEntry, mem)
    | some mount =>
      match (index mount "mountpoint").asString with
      | none => (some Error.invalidMountPoint, mem)
      | some mountPoint =>
        if mountPoint ∈ mountPoints then (some Error.multipleMounts, mem)
        else
          have : sizeOf mount < sizeOf m := sizeOf_asMap m mount h
          match validateAt mem ctx mount with
          | (some err, mem1) => (some err, mem1)
          | (none, mem1) => mountLoopAt mem1 ctx (mountPoint :: mountPoints) rest
termination_by (sizeOf mounts, 0)

/-- `measureValidator` with `ctx` a pointer. -/
def measureValidatorAt (mem : Memory) (ctx : Nat) (dsConfiguration : Node) :
    Option Error × Memory :=
  match (index dsConfiguration "prefix").asString with
  | none => (some Error.invalidPrefix, mem)
  | some _ =>
    match h : (index dsConfiguration "child").asMap with
    | none => (some Error.invalidChild, mem)
    | some child =>
      have : sizeOf child < sizeOf dsConfiguration :=
        sizeOf_index_asMap dsConfiguration "child" child h
      validateAt mem ctx child
termination_by (sizeOf dsConfiguration, 1)

end

/-- `Validate` on a memory: allocates a context with no claimed path, calls
`validate` with its address and returns the error; the memory it leaves holds
the context of this call besides what was there. -/
def ValidateAt (mem : Memory) (dsConfiguration : Node) : Option Error × Memory :=
  match mem.alloc { usedPaths := [] } with
  | (ctx, mem1) => validateAt mem1 ctx dsConfiguration

/-- Successive `Validate` calls of one process: every call runs on the memory
left by the calls before it. -/
def ValidateRun (mem : Memory) : List Node → List (Option Error) × Memory
  | [] => ([], mem)
  | cfg :: rest =>
    match ValidateAt mem cfg with
    | (err, mem1) =>
      match ValidateRun mem1 rest with
      | (errs, mem2) => (err :: errs, mem2)

/-- The memory after a call that, on the object at `ptr`, returns `r`. -/
def Memory.after (mem : Memory) (ptr : Nat) (r : Result) : Option Error × Memory :=
  (r.1, mem.write ptr r.2)

/-! ## Unfolding equations -/

theorem validate_unfold (ctx : validatorContext) (cfg : Node) :
    validate ctx cfg =
      match (index cfg "type").asString with
      | none => (some Error.ErrInvalidType, ctx)
      | some t =>
        match validators t with
        | none => (some (Error.unsupportedType t), ctx)
        | some Validator.badgerdsValidator => badgerdsValidator ctx cfg
        | some Validator.flatfsValidator => flatfsValidator ctx cfg
        | some Validator.leveldsValidator => leveldsValidator ctx cfg
        | some Validator.measureValidator => measureValidator ctx cfg
        | some Validator.mountValidator => mountValidator ctx cfg := by
  rw [validate]

theorem mountValidator_unfold (ctx : validatorContext) (cfg : Node) :
    mountValidator ctx cfg =
      match (index cfg "mounts").asSeq with
      | none => (some Error.invalidMounts, ctx)
      | some mounts => mountLoop ctx [] mounts := by
  rw [mountValidator]
  split <;> simp_all

theorem measureValidator_unfold (ctx : validatorContext) (cfg : Node) :
    measureValidator ctx cfg =
      match (index cfg "prefix").asString with
      | none => (some Error.invalidPrefix, ctx)
      | some _ =>
        match (index cfg "child").asMap with
        | none => (some Error.invalidChild, ctx)
        | some child => validate ctx child := by
  rw [measureValidator]
  split
  · rfl
  · split <;> simp_all

theorem mountLoop_nil (ctx : validatorContext) (mps : List String) :
    mountLoop ctx mps [] = (none, ctx) := by
  rw [mountLoop]

theorem mountLoop_cons (ctx : validatorContext) (mps : List String) (m : Value)
    (rest : List Value) :
    mountLoop ctx mps (m :: rest) =
      match m.asMap with
      | none => (some Error.invalidMountsEntry, ctx)
      | some mount =>
        match (index mount "mountpoint").asString with
        | none => (some Error.invalidMountPoint, ctx)
        | some mountPoint =>
          if mountPoint ∈ mps then (some Error.multipleMounts, ctx)
          else
            match validate ctx mount with
            | (some err, ctx1) => (some err, ctx1)
            | (none, ctx1) => mountLoop ctx1 (mountPoint :: mps) rest := by
  rw [mountLoop]
  split <;> simp_all

theorem leafPaths_unfold (cfg : Node) :
    leafPaths cfg =
      match (index cfg "type").asString with
      | none => []
      | some t =>
        if t = "badgerds" ∨ t = "flatfs" ∨ t = "levelds" then declaredPath cfg
        else if t = "measure" then
          match (index cfg "child").asMap with
          | none => []
          | some child => leafPaths child
        else if t = "mount" then
          match (index cfg "mounts").asSeq with
          | none => []
          | some mounts => leafPathsOfEntries mounts
        else [] := by
  rw [leafPaths]
  split
  · rfl
  · split
    · rfl
    · split
      · split <;> simp_all
      · split
        · split <;> simp_all
        · rfl

theorem leafPathsOfEntries_nil : leafPathsOfEntries [] = [] := by
  rw [leafPathsOfEntries]

theorem leafPathsOfEntries_cons (m : Value) (rest : List Value) :
    leafPathsOfEntries (m :: rest) =
      (match m.asMap with
       | none => []
       | some mount => leafPaths mount) ++ leafPathsOfEntries rest := by
  rw [leafPathsOfEntries]
  split <;> simp_all

theorem wellShaped_unfold (cfg : Node) :
    wellShaped cfg =
      match (index cfg "type").asString with
      | none => false
      | some t =>
        if t = "badgerds" ∨ t = "flatfs" then ((index cfg "path").asString).isSome
        else if t = "levelds" then
          ((index cfg "path").asString).isSome && ((index cfg "compression").asString).isSome
        else if t = "measure" then
          ((index cfg "prefix").asString).isSome &&
            (match (index cfg "child").asMap with
             | none => false
             | some child => wellShaped child)
        else if t = "mount" then
          match (index cfg "mounts").asSeq with
          | none => false
          | some mounts =>
            entriesHaveMountPoint mounts && decide (mountPointsOf mounts).Nodup
              && wellShapedEntries mounts
        else false := by
  rw [wellShaped]
  split
  · rfl
  · split
    · rfl
    · split
      · rfl
      · split
        · split <;> simp_all
        · split
          · split <;> simp_all
          · rfl

theorem wellShapedEntries_nil : wellShapedEntries [] = true := by
  rw [wellShapedEntries]

theorem wellShapedEntries_cons (m : Value) (rest : List Value) :
    wellShapedEntries (m :: rest) =
      ((match m.asMap with
        | none => false
        | some mount => wellShaped mount) && wellShapedEntries rest) := by
  rw [wellShapedEntries]
  split <;> simp_all

/-! ## Induction on the configuration tree -/

theorem mem_asSeq_sizeOf (cfg : Node) (k : String) (ms : List Value) (mount : Node)
    (h : (index cfg k).asSeq = some ms) (hm : Value.map mount ∈ ms) :
    sizeOf mount < sizeOf cfg := by
  have h1 := sizeOf_index_asSeq cfg k ms h
  have h2 := List.sizeOf_lt_of_mem hm
  have h3 : sizeOf mount < sizeOf (Value.map mount) := by simp
  omega

/-- Induction on the tree: a property holds of every node when it holds of
a node as soon as it holds of its map `child` and of the map entries of its
`mounts`. -/
theorem node_induction (P : Node → Prop)
    (step : ∀ cfg : Node,
      (∀ child, (index cfg "child").asMap = some child → P child) →
      (∀ ms mount, (index cfg "mounts").asSeq = some ms → Value.map mount ∈ ms → P mount) →
      P cfg) :
    ∀ cfg, P cfg := by
  have key : ∀ n : Nat, ∀ cfg : Node, sizeOf cfg < n → P cfg := by
    intro n
    induction n with
    | zero => intro cfg h; omega
    | succ n ih =>
      intro cfg hlt
      apply step
      · intro child hc
        have := sizeOf_index_asMap cfg "child" child hc
        exact ih child (by omega)
      · intro ms mount hms hm
        have := mem_asSeq_sizeOf cfg "mounts" ms mount hms hm
        exact ih mount (by omega)
  intro cfg
  exact key (sizeOf cfg + 1) cfg (by omega)

/-! ## The walk against the specification vocabulary -/

theorem WalkOK_fail (used paths : List String) (shaped : Prop) (e : Error)
    (ctx : validatorContext) (hctx : ctx.usedPaths = used)
    (he : ∀ p, e ≠ Error.pathInUse p) (hs : ¬ shaped) :
    WalkOK used paths shaped (some e, ctx) := by
  refine ⟨[], by simp [hctx], ?_, ?_, ?_⟩
  · intro h; simp at h
  · intro p h
    simp at h
    exact absurd h (he p)
  · intro e1 _
    exact ⟨List.nil_prefix, fun _ => hs⟩

theorem WalkOK_congr {used paths paths1 : List String} {shaped shaped1 : Prop} {r : Result}
    (h : WalkOK used paths shaped r) (hp : paths = paths1) (hs : shaped ↔ shaped1) :
    WalkOK used paths1 shaped1 r := by
  subst hp
  obtain ⟨v, h1, h2, h3, h4⟩ := h
  refine ⟨v, h1, ?_, h3, ?_⟩
  · intro hr
    obtain ⟨a, b, c⟩ := h2 hr
    exact ⟨a, hs.mp b, c⟩
  · intro e he
    obtain ⟨a, b⟩ := h4 e he
    exact ⟨a, fun hne hs1 => b hne (hs.mpr hs1)⟩

theorem checkPath_walk (ctx : validatorContext) (v : Value) :
    WalkOK ctx.usedPaths (match v.asString with | none => [] | some p => [p])
      (v.asString.isSome = true) (checkPath ctx v) := by
  unfold checkPath
  cases hv : v.asString with
  | none =>
    exact WalkOK_fail _ _ _ _ _ rfl (by intro p; simp) (by simp)
  | some path =>
    simp only
    by_cases hin : path ∈ ctx.usedPaths
    · rw [if_pos hin]
      refine ⟨[], by simp, ?_, ?_, ?_⟩
      · intro h; simp at h
      · intro p h
        simp at h
        subst h
        simpa using hin
      · intro e he
        simp at he
        subst he
        exact ⟨List.nil_prefix, fun hne => absurd rfl (hne path)⟩
    · rw [if_neg hin]
      refine ⟨[path], by simp, ?_, ?_, ?_⟩
      · intro _
        simpa using hin
      · intro p h; simp at h
      · intro e he; simp at he

theorem flatfsValidator_walk (ctx : validatorContext) (cfg : Node) :
    WalkOK ctx.usedPaths (declaredPath cfg) (((index cfg "path").asString).isSome = true)
      (flatfsValidator ctx cfg) := by
  have h := checkPath_walk ctx (index cfg "path")
  unfold flatfsValidator
  unfold declaredPath
  rcases hc : checkPath ctx (index cfg "path") with ⟨_ | e, c⟩ <;> rw [hc] at h <;> exact h

theorem badgerdsValidator_walk (ctx : validatorContext) (cfg : Node) :
    WalkOK ctx.usedPaths (declaredPath cfg) (((index cfg "path").asString).isSome = true)
      (badgerdsValidator ctx cfg) := by
  have h := checkPath_walk ctx (index cfg "path")
  unfold badgerdsValidator
  unfold declaredPath
  rcases hc : checkPath ctx (index cfg "path") with ⟨_ | e, c⟩ <;> rw [hc] at h <;> exact h

theorem leveldsValidator_walk (ctx : validatorContext) (cfg : Node) :
    WalkOK ctx.usedPaths (declaredPath cfg)
      ((((index cfg "path").asString).isSome && ((index cfg "compression").asString).isSome) = true)
      (leveldsValidator ctx cfg) := by
  have h := checkPath_walk ctx (index cfg "path")
  unfold leveldsValidator
  unfold declaredPath
  rcases hc : checkPath ctx (index cfg "path") with ⟨_ | e, c⟩ <;> rw [hc] at h
  · simp only
    obtain ⟨v, h1, h2, h3, h4⟩ := h
    obtain ⟨hv, hs, hnd, hdis⟩ := h2 rfl
    cases hcomp : (index cfg "compression").asString with
    | none =>
      refine ⟨v, h1, ?_, ?_, ?_⟩
      · intro h; simp at h
      · intro p h; simp at h
      · intro e he
        refine ⟨by rw [hv], fun _ => by simp⟩
    | some s =>
      refine ⟨v, h1, ?_, ?_, ?_⟩
      · intro _
        exact ⟨hv, by simpa using hs, hnd, hdis⟩
      · intro p h; simp at h
      · intro e he; simp at he
  · simp only
    obtain ⟨v, h1, h2, h3, h4⟩ := h
    refine ⟨v, h1, ?_, h3, ?_⟩
    · intro h; simp at h
    · intro e1 he1
      obtain ⟨a, b⟩ := h4 e1 he1
      refine ⟨a, fun hne hs => b hne ?_⟩
      simp at hs
      simp [hs.1]

theorem WalkOK_seq {used p1 p2 : List String} {s2 S : Prop} {r : Result}
    {ctx1 : validatorContext} (hctx : ctx1.usedPaths = p1.reverse ++ used)
    (hnd : p1.Nodup) (hdis : ∀ p ∈ p1, p ∉ used)
    (h2 : WalkOK ctx1.usedPaths p2 s2 r) (hS : S ↔ s2) :
    WalkOK used (p1 ++ p2) S r := by
  obtain ⟨v2, e2, hn, hp, he⟩ := h2
  refine ⟨p1 ++ v2, by simp [e2, hctx], ?_, ?_, ?_⟩
  · intro hr
    obtain ⟨hv, hs, hnd2, hdis2⟩ := hn hr
    refine ⟨by rw [hv], hS.mpr hs, ?_, ?_⟩
    · rw [List.nodup_append]
      refine ⟨hnd, hnd2, ?_⟩
      intro a ha1 ha2
      exact hdis2 a ha2 (by simp [hctx, ha1])
    · intro p hpm
      rcases List.mem_append.mp hpm with h | h
      · exact hdis p h
      · intro hu
        exact hdis2 p h (by simp [hctx, hu])
  · intro p hr
    obtain ⟨a, b⟩ := hp p hr
    refine ⟨?_, ?_⟩
    · rw [List.append_assoc]
      exact (List.prefix_append_right_inj p1).mpr a
    · rw [hctx] at b
      simpa [or_assoc] using b
  · intro e hr
    obtain ⟨a, b⟩ := he e hr
    exact ⟨(List.prefix_append_right_inj p1).mpr a, fun hne hs => b hne (hS.mp hs)⟩

theorem WalkOK_of_failed_head {used p1 p2 : List String} {s1 S : Prop} {e : Error}
    {ctx1 : validatorContext} (h1 : WalkOK used p1 s1 (some e, ctx1)) (hS : S → s1) :
    WalkOK used (p1 ++ p2) S (some e, ctx1) := by
  obtain ⟨v, e1, _, hp, he⟩ := h1
  refine ⟨v, e1, ?_, ?_, ?_⟩
  · intro hr; simp at hr
  · intro p hr
    obtain ⟨a, b⟩ := hp p hr
    exact ⟨a.trans (List.prefix_append p1 p2), b⟩
  · intro e2 hr
    obtain ⟨a, b⟩ := he e2 hr
    exact ⟨a.trans (List.prefix_append p1 p2), fun hne hs => b hne (hS hs)⟩

theorem mountLoop_walk (ms : List Value)
    (ih : ∀ mount, Value.map mount ∈ ms → ∀ ctx : validatorContext,
      WalkOK ctx.usedPaths (leafPaths mount) (wellShaped mount = true) (validate ctx mount)) :
    ∀ (ctx : validatorContext) (mps : List String),
      WalkOK ctx.usedPaths (leafPathsOfEntries ms) (ShapedEntries mps ms)
        (mountLoop ctx mps ms) := by
  induction ms with
  | nil =>
    intro ctx mps
    rw [mountLoop_nil, leafPathsOfEntries_nil]
    refine ⟨[], by simp, ?_, ?_, ?_⟩
    · intro _
      refine ⟨rfl, ?_, List.nodup_nil, by simp⟩
      simp [ShapedEntries, entriesHaveMountPoint, mountPointsOf, wellShapedEntries_nil]
    · intro p h; simp at h
    · intro e h; simp at h
  | cons m rest ihrest =>
    intro ctx mps
    rw [mountLoop_cons, leafPathsOfEntries_cons]
    cases hm : m.asMap with
    | none =>
      apply WalkOK_fail _ _ _ _ _ rfl (by intro p; simp)
      simp [ShapedEntries, entriesHaveMountPoint, hm]
    | some mount =>
      have hmem : Value.map mount ∈ m :: rest := by
        cases m <;> simp [Value.asMap] at hm
        subst hm
        simp
      simp only
      cases hmp : (index mount "mountpoint").asString with
      | none =>
        apply WalkOK_fail _ _ _ _ _ rfl (by intro p; simp)
        simp [ShapedEntries, entriesHaveMountPoint, hm, hmp]
      | some mp =>
        simp only
        by_cases hin : mp ∈ mps
        · rw [if_pos hin]
          apply WalkOK_fail _ _ _ _ _ rfl (by intro p; simp)
          intro hs
          exact hs.2.2.1 mp (by simp [mountPointsOf, hm, hmp]) hin
        · rw [if_neg hin]
          have hv := ih mount hmem ctx
          have hshape : ShapedEntries mps (m :: rest) ↔
              (wellShaped mount = true ∧ ShapedEntries (mp :: mps) rest) := by
            simp only [ShapedEntries, entriesHaveMountPoint, mountPointsOf, hm, hmp,
              wellShapedEntries_cons, Option.isSome_some, Bool.true_and, Bool.and_eq_true,
              List.singleton_append, List.nodup_cons, List.mem_cons]
            constructor
            · rintro ⟨h1, ⟨h2, h3⟩, h4, h5, h6⟩
              refine ⟨h5, h1, h3, ?_, h6⟩
              intro x hx hx2
              rcases hx2 with rfl | hx2
              · exact h2 hx
              · exact h4 x (Or.inr hx) hx2
            · rintro ⟨h5, h1, h3, h4, h6⟩
              refine ⟨h1, ⟨fun hx => h4 mp hx (Or.inl rfl), h3⟩, ?_, h5, h6⟩
              intro x hx hx2
              rcases hx with rfl | hx
              · exact hin hx2
              · exact h4 x hx (Or.inr hx2)
          rcases hr : validate ctx mount with ⟨_ | err, ctx1⟩
          · rw [hr] at hv
            simp only
            obtain ⟨v, e1, hn, -, -⟩ := hv
            obtain ⟨hv1, hs1, hnd1, hdis1⟩ := hn rfl
            subst hv1
            have hrest := ihrest (fun mt hmt c => ih mt (List.mem_cons_of_mem _ hmt) c)
              ctx1 (mp :: mps)
            exact WalkOK_seq e1 hnd1 hdis1 hrest
              (hshape.trans ⟨fun h => h.2, fun h => ⟨hs1, h⟩⟩)
          · rw [hr] at hv
            simp only
            exact WalkOK_of_failed_head hv (fun hs => (hshape.mp hs).1)


/-- Outcome of `validate` in the vocabulary of the specification. -/
theorem validate_walk : ∀ (cfg : Node) (ctx : validatorContext),
    WalkOK ctx.usedPaths (leafPaths cfg) (wellShaped cfg = true) (validate ctx cfg) := by
  intro cfg
  induction cfg using node_induction with
  | step cfg ihc ihm =>
  intro ctx
  rw [validate_unfold, leafPaths_unfold, wellShaped_unfold]
  cases ht : (index cfg "type").asString with
  | none => exact WalkOK_fail _ _ _ _ _ rfl (by intro p; simp) (by simp)
  | some t =>
    simp only
    by_cases h1 : t = "badgerds"
    · subst h1
      simp only [validators]
      simpa using badgerdsValidator_walk ctx cfg
    by_cases h2 : t = "flatfs"
    · subst h2
      simp only [validators]
      simpa using flatfsValidator_walk ctx cfg
    by_cases h3 : t = "levelds"
    · subst h3
      simp only [validators]
      simpa using leveldsValidator_walk ctx cfg
    by_cases h4 : t = "measure"
    · subst h4
      simp only [validators]
      simp
      rw [measureValidator_unfold]
      cases hp : (index cfg "prefix").asString with
      | none => exact WalkOK_fail _ _ _ _ _ rfl (by intro p; simp) (by simp)
      | some s =>
        cases hc : (index cfg "child").asMap with
        | none => exact WalkOK_fail _ _ _ _ _ rfl (by intro p; simp) (by simp)
        | some child =>
          simp only
          exact WalkOK_congr (ihc child hc ctx) rfl (by simp)
    by_cases h5 : t = "mount"
    · subst h5
      simp only [validators]
      simp
      rw [mountValidator_unfold]
      cases hs : (index cfg "mounts").asSeq with
      | none => exact WalkOK_fail _ _ _ _ _ rfl (by intro p; simp) (by simp)
      | some ms =>
        simp only
        have := mountLoop_walk ms (fun mount hm c => ihm ms mount hs hm c) ctx []
        refine WalkOK_congr this rfl ?_
        simp [ShapedEntries, and_assoc]
    · simp only [validators, h1, h2, h3, h4, h5, if_false, false_or]
      exact WalkOK_fail _ _ _ _ _ rfl (by intro p; simp) (by simp)



/-! ## Dispatch equations -/

theorem validate_badgerds (ctx : validatorContext) (cfg : Node)
    (h : index cfg "type" = Value.str "badgerds") :
    validate ctx cfg = badgerdsValidator ctx cfg := by
  rw [validate_unfold, h]
  simp [Value.asString, validators]

theorem validate_flatfs (ctx : validatorContext) (cfg : Node)
    (h : index cfg "type" = Value.str "flatfs") :
    validate ctx cfg = flatfsValidator ctx cfg := by
  rw [validate_unfold, h]
  simp [Value.asString, validators]

theorem validate_levelds (ctx : validatorContext) (cfg : Node)
    (h : index cfg "type" = Value.str "levelds") :
    validate ctx cfg = leveldsValidator ctx cfg := by
  rw [validate_unfold, h]
  simp [Value.asString, validators]

theorem validate_measure (ctx : validatorContext) (cfg : Node)
    (h : index cfg "type" = Value.str "measure") :
    validate ctx cfg = measureValidator ctx cfg := by
  rw [validate_unfold, h]
  simp [Value.asString, validators]

theorem validate_mount (ctx : validatorContext) (cfg : Node) (ms : List Value)
    (h : index cfg "type" = Value.str "mount") (hm : index cfg "mounts" = Value.seq ms) :
    validate ctx cfg = mountLoop ctx [] ms := by
  rw [validate_unfold, h]
  simp [Value.asString, validators, mountValidator_unfold, hm, Value.asSeq]

theorem validate_invalidType (ctx : validatorContext) (cfg : Node)
    (h : (index cfg "type").asString = none) :
    validate ctx cfg = (some Error.ErrInvalidType, ctx) := by
  rw [validate_unfold, h]

theorem validate_unsupported (ctx : validatorContext) (cfg : Node) (t : String)
    (h : index cfg "type" = Value.str t) (hv : validators t = none) :
    validate ctx cfg = (some (Error.unsupportedType t), ctx) := by
  rw [validate_unfold, h]
  simp [Value.asString, hv]

theorem measureValidator_child (ctx : validatorContext) (cfg child : Node) (s : String)
    (hp : index cfg "prefix" = Value.str s) (hc : index cfg "child" = Value.map child) :
    measureValidator ctx cfg = validate ctx child := by
  rw [measureValidator_unfold, hp, hc]
  simp [Value.asString, Value.asMap]

theorem asString_eq_some {v : Value} {s : String} :
    v.asString = some s ↔ v = Value.str s := by
  cases v <;> simp [Value.asString]

theorem validators_eq_none {t : String} :
    validators t = none ↔ t ∉ ["badgerds", "flatfs", "levelds", "measure", "mount"] := by
  unfold validators
  simp only [List.mem_cons, List.mem_singleton, List.not_mem_nil, or_false, not_or]
  constructor
  · intro h
    split_ifs at h
    simp_all
  · rintro ⟨h1, h2, h3, h4, h5⟩
    simp [h1, h2, h3, h4, h5]

theorem Validate_of_validate {cfg : Node} {r : Option Error} {c : validatorContext}
    (h : validate { usedPaths := [] } cfg = (r, c)) : Validate cfg = r := by
  rw [Validate, h]

theorem mountLoop_append_fail (l1 l2 : List Value) :
    ∀ (ctx : validatorContext) (mps : List String) (E : Error) (c : validatorContext),
      mountLoop ctx mps l1 = (some E, c) → mountLoop ctx mps (l1 ++ l2) = (some E, c) := by
  induction l1 with
  | nil =>
    intro ctx mps E c h
    rw [mountLoop_nil] at h
    simp at h
  | cons m rest ih =>
    intro ctx mps E c h
    rw [List.cons_append, mountLoop_cons]
    rw [mountLoop_cons] at h
    cases hm : m.asMap with
    | none => simpa [hm] using h
    | some mount =>
      rw [hm] at h
      simp only at h ⊢
      cases hmp : (index mount "mountpoint").asString with
      | none => simpa [hmp] using h
      | some mp =>
        rw [hmp] at h
        simp only at h ⊢
        by_cases hin : mp ∈ mps
        · simpa [hin] using h
        · rw [if_neg hin] at h ⊢
          rcases hr : validate ctx mount with ⟨_ | err, ctx1⟩
          · rw [hr] at h
            simp only at h ⊢
            exact ih ctx1 (mp :: mps) E c h
          · rw [hr] at h
            simpa using h

theorem leafPaths_leaf (cfg : Node)
    (h : index cfg "type" = Value.str "badgerds" ∨ index cfg "type" = Value.str "flatfs" ∨
      index cfg "type" = Value.str "levelds") :
    leafPaths cfg = declaredPath cfg := by
  rw [leafPaths_unfold]
  rcases h with h | h | h <;> rw [h] <;> simp [Value.asString]

theorem leafPaths_measure (cfg child : Node) (h : index cfg "type" = Value.str "measure")
    (hc : index cfg "child" = Value.map child) : leafPaths cfg = leafPaths child := by
  rw [leafPaths_unfold, h, hc]
  simp [Value.asString, Value.asMap]

theorem leafPaths_mount (cfg : Node) (ms : List Value)
    (h : index cfg "type" = Value.str "mount") (hm : index cfg "mounts" = Value.seq ms) :
    leafPaths cfg = leafPathsOfEntries ms := by
  rw [leafPaths_unfold, h, hm]
  simp [Value.asString, Value.asSeq]

theorem wellShaped_leaf (cfg : Node)
    (h : index cfg "type" = Value.str "badgerds" ∨ index cfg "type" = Value.str "flatfs") :
    wellShaped cfg = ((index cfg "path").asString).isSome := by
  rw [wellShaped_unfold]
  rcases h with h | h <;> rw [h] <;> simp [Value.asString]

theorem wellShaped_levelds (cfg : Node) (h : index cfg "type" = Value.str "levelds") :
    wellShaped cfg =
      (((index cfg "path").asString).isSome && ((index cfg "compression").asString).isSome) := by
  rw [wellShaped_unfold, h]
  simp [Value.asString]

theorem wellShaped_measure (cfg child : Node) (h : index cfg "type" = Value.str "measure")
    (hc : index cfg "child" = Value.map child) :
    wellShaped cfg = (((index cfg "prefix").asString).isSome && wellShaped child) := by
  rw [wellShaped_unfold, h, hc]
  simp [Value.asString, Value.asMap]

theorem wellShaped_mount (cfg : Node) (ms : List Value)
    (h : index cfg "type" = Value.str "mount") (hm : index cfg "mounts" = Value.seq ms) :
    wellShaped cfg =
      (entriesHaveMountPoint ms && decide (mountPointsOf ms).Nodup && wellShapedEntries ms) := by
  rw [wellShaped_unfold, h, hm]
  simp [Value.asString, Value.asSeq]


/-! ## Consequences of the walk lemma for `Validate` -/

theorem Validate_walk (cfg : Node) :
    WalkOK [] (leafPaths cfg) (wellShaped cfg = true)
      (Validate cfg, (validate { usedPaths := [] } cfg).2) :=
  validate_walk cfg { usedPaths := [] }

theorem pathInUse_not_nodup {cfg : Node} {p : String}
    (h : Validate cfg = some (Error.pathInUse p)) : 2 ≤ (leafPaths cfg).count p := by
  obtain ⟨v, _, _, hp, _⟩ := Validate_walk cfg
  obtain ⟨⟨rest, hpre⟩, hmem⟩ := hp p h
  rw [← hpre]
  have hv : 0 < v.count p := List.count_pos_iff.mpr (by simpa using hmem)
  simp only [List.count_append, List.count_singleton_self]
  omega

theorem Validate_none_of_wellFormed {cfg : Node} (hs : wellShaped cfg = true)
    (hn : (leafPaths cfg).Nodup) : Validate cfg = none := by
  cases hr : Validate cfg with
  | none => rfl
  | some e =>
    exfalso
    by_cases hp : ∃ p, e = Error.pathInUse p
    · obtain ⟨p, rfl⟩ := hp
      have h2 := pathInUse_not_nodup hr
      have h1 := List.nodup_iff_count_le_one.mp hn p
      omega
    · obtain ⟨v, _, _, _, he⟩ := Validate_walk cfg
      exact (he e hr).2 (fun p hpe => hp ⟨p, hpe⟩) hs

theorem wellFormed_of_Validate_none {cfg : Node} (h : Validate cfg = none) :
    wellShaped cfg = true ∧ (leafPaths cfg).Nodup := by
  obtain ⟨v, _, hn, _, _⟩ := Validate_walk cfg
  obtain ⟨_, hs, hnd, _⟩ := hn h
  exact ⟨hs, hnd⟩

/-! ## Where an error comes from -/

theorem asSeq_eq_some {v : Value} {ms : List Value} :
    v.asSeq = some ms ↔ v = Value.seq ms := by
  cases v <;> simp [Value.asSeq]

theorem asMap_eq_some {v : Value} {m : Node} :
    v.asMap = some m ↔ v = Value.map m := by
  cases v <;> simp [Value.asMap]

theorem checkPath_error (ctx c : validatorContext) (v : Value) (e : Error)
    (h : checkPath ctx v = (some e, c)) :
    (e = Error.invalidPathType ∧ v.asString = none) ∨
      ∃ p, e = Error.pathInUse p ∧ v = Value.str p := by
  unfold checkPath at h
  cases hv : v.asString with
  | none =>
    rw [hv] at h
    simp at h
    exact Or.inl ⟨h.1.symm, rfl⟩
  | some p =>
    rw [hv] at h
    simp only at h
    split_ifs at h
    · simp at h
      exact Or.inr ⟨p, h.1.symm, asString_eq_some.mp hv⟩
    · simp at h

theorem flatfsValidator_error (ctx c : validatorContext) (cfg : Node) (e : Error)
    (h : flatfsValidator ctx cfg = (some e, c)) :
    (e = Error.invalidPathType ∧ (index cfg "path").asString = none) ∨
      ∃ p, e = Error.pathInUse p ∧ index cfg "path" = Value.str p := by
  unfold flatfsValidator at h
  rcases hc : checkPath ctx (index cfg "path") with ⟨_ | e1, c1⟩ <;> rw [hc] at h
  · simp at h
  · simp at h
    obtain ⟨rfl, rfl⟩ := h
    exact checkPath_error _ _ _ _ hc

theorem badgerdsValidator_error (ctx c : validatorContext) (cfg : Node) (e : Error)
    (h : badgerdsValidator ctx cfg = (some e, c)) :
    (e = Error.invalidPathType ∧ (index cfg "path").asString = none) ∨
      ∃ p, e = Error.pathInUse p ∧ index cfg "path" = Value.str p := by
  unfold badgerdsValidator at h
  rcases hc : checkPath ctx (index cfg "path") with ⟨_ | e1, c1⟩ <;> rw [hc] at h
  · simp at h
  · simp at h
    obtain ⟨rfl, rfl⟩ := h
    exact checkPath_error _ _ _ _ hc

theorem leveldsValidator_error (ctx c : validatorContext) (cfg : Node) (e : Error)
    (h : leveldsValidator ctx cfg = (some e, c)) :
    (e = Error.invalidPathType ∧ (index cfg "path").asString = none) ∨
      (∃ p, e = Error.pathInUse p ∧ index cfg "path" = Value.str p) ∨
      (e = Error.invalidCompression ∧ (index cfg "compression").asString = none) := by
  unfold leveldsValidator at h
  rcases hc : checkPath ctx (index cfg "path") with ⟨_ | e1, c1⟩ <;> rw [hc] at h
  · simp only at h
    cases hk : (index cfg "compression").asString with
    | none =>
      rw [hk] at h
      simp at h
      exact Or.inr (Or.inr ⟨h.1.symm, rfl⟩)
    | some s =>
      rw [hk] at h
      simp at h
  · simp at h
    obtain ⟨rfl, rfl⟩ := h
    rcases checkPath_error _ _ _ _ hc with h1 | h1
    · exact Or.inl h1
    · exact Or.inr (Or.inl h1)

theorem mountPointsOf_cons_of {m : Value} {mount : Node} {mp : String} (rest : List Value)
    (hm : m.asMap = some mount) (hmp : (index mount "mountpoint").asString = some mp) :
    mountPointsOf (m :: rest) = mp :: mountPointsOf rest := by
  simp [mountPointsOf, hm, hmp]

/-- An error returned by the mount loop is raised by the loop itself on one of
the entries, or is the error returned by `validate` on one of them. -/
theorem mountLoop_error_origin (ms : List Value) :
    ∀ (ctx : validatorContext) (mps : List String) (e : Error) (c : validatorContext),
      mountLoop ctx mps ms = (some e, c) →
      (e = Error.invalidMountsEntry ∧ ∃ m ∈ ms, m.asMap = none) ∨
      (e = Error.invalidMountPoint ∧
        ∃ mount, Value.map mount ∈ ms ∧ (index mount "mountpoint").asString = none) ∨
      (e = Error.multipleMounts ∧
        ¬ ((mountPointsOf ms).Nodup ∧ ∀ x ∈ mountPointsOf ms, x ∉ mps)) ∨
      (∃ mount c0 c1, Value.map mount ∈ ms ∧ validate c0 mount = (some e, c1)) := by
  induction ms with
  | nil =>
    intro ctx mps e c h
    rw [mountLoop_nil] at h
    simp at h
  | cons m rest ih =>
    intro ctx mps e c h
    rw [mountLoop_cons] at h
    cases hm : m.asMap with
    | none =>
      rw [hm] at h
      simp at h
      exact Or.inl ⟨h.1.symm, m, List.mem_cons_self _ _, hm⟩
    | some mount =>
      have hme : m = Value.map mount := asMap_eq_some.mp hm
      rw [hm] at h
      simp only at h
      cases hmp : (index mount "mountpoint").asString with
      | none =>
        rw [hmp] at h
        simp at h
        exact Or.inr (Or.inl ⟨h.1.symm, mount, by simp [hme], hmp⟩)
      | some mp =>
        rw [hmp] at h
        simp only at h
        rw [mountPointsOf_cons_of rest hm hmp]
        by_cases hin : mp ∈ mps
        · rw [if_pos hin] at h
          simp at h
          refine Or.inr (Or.inr (Or.inl ⟨h.1.symm, ?_⟩))
          intro hh
          exact hh.2 mp (List.mem_cons_self _ _) hin
        · rw [if_neg hin] at h
          rcases hr : validate ctx mount with ⟨_ | err, ctx1⟩
          · rw [hr] at h
            simp only at h
            rcases ih ctx1 (mp :: mps) e c h with h1 | h1 | h1 | h1
            · obtain ⟨he, m1, hm1, hm2⟩ := h1
              exact Or.inl ⟨he, m1, List.mem_cons_of_mem _ hm1, hm2⟩
            · obtain ⟨he, m1, hm1, hm2⟩ := h1
              exact Or.inr (Or.inl ⟨he, m1, List.mem_cons_of_mem _ hm1, hm2⟩)
            · obtain ⟨he, hnot⟩ := h1
              refine Or.inr (Or.inr (Or.inl ⟨he, ?_⟩))
              rintro ⟨hnd, hdis⟩
              apply hnot
              rw [List.nodup_cons] at hnd
              refine ⟨hnd.2, ?_⟩
              intro x hx hx2
              rcases List.mem_cons.mp hx2 with rfl | hx2
              · exact hnd.1 hx
              · exact hdis x (List.mem_cons_of_mem _ hx) hx2
            · obtain ⟨m1, c0, c1, hm1, hv⟩ := h1
              exact Or.inr (Or.inr (Or.inr ⟨m1, c0, c1, List.mem_cons_of_mem _ hm1, hv⟩))
          · rw [hr] at h
            simp at h
            obtain ⟨rfl, rfl⟩ := h
            exact Or.inr (Or.inr (Or.inr ⟨mount, ctx, _, by simp [hme], hr⟩))

/-- Every error returned by `validate` is raised at some node of the tree. -/
theorem validate_error_origin : ∀ (cfg : Node) (ctx : validatorContext) (e : Error)
    (c : validatorContext), validate ctx cfg = (some e, c) →
    ∃ n, InTree cfg n ∧ RaisedAt n e := by
  intro cfg
  induction cfg using node_induction with
  | step cfg ihc ihm =>
  intro ctx e c h
  cases ht : (index cfg "type").asString with
  | none =>
    rw [validate_invalidType _ _ ht] at h
    simp at h
    obtain ⟨rfl, -⟩ := h
    exact ⟨cfg, InTree.root cfg, ht⟩
  | some t =>
    have hty : index cfg "type" = Value.str t := asString_eq_some.mp ht
    by_cases h1 : t = "badgerds"
    · subst h1
      rw [validate_badgerds _ _ hty] at h
      refine ⟨cfg, InTree.root cfg, ?_⟩
      rcases badgerdsValidator_error _ _ _ _ h with ⟨rfl, hp⟩ | ⟨p, rfl, hp⟩
      · exact ⟨Or.inl hty, hp⟩
      · exact ⟨Or.inl hty, hp⟩
    by_cases h2 : t = "flatfs"
    · subst h2
      rw [validate_flatfs _ _ hty] at h
      refine ⟨cfg, InTree.root cfg, ?_⟩
      rcases flatfsValidator_error _ _ _ _ h with ⟨rfl, hp⟩ | ⟨p, rfl, hp⟩
      · exact ⟨Or.inr (Or.inl hty), hp⟩
      · exact ⟨Or.inr (Or.inl hty), hp⟩
    by_cases h3 : t = "levelds"
    · subst h3
      rw [validate_levelds _ _ hty] at h
      refine ⟨cfg, InTree.root cfg, ?_⟩
      rcases leveldsValidator_error _ _ _ _ h with ⟨rfl, hp⟩ | ⟨p, rfl, hp⟩ | ⟨rfl, hp⟩
      · exact ⟨Or.inr (Or.inr hty), hp⟩
      · exact ⟨Or.inr (Or.inr hty), hp⟩
      · exact ⟨hty, hp⟩
    by_cases h4 : t = "measure"
    · subst h4
      rw [validate_measure _ _ hty, measureValidator_unfold] at h
      cases hp : (index cfg "prefix").asString with
      | none =>
        rw [hp] at h
        simp at h
        obtain ⟨rfl, -⟩ := h
        exact ⟨cfg, InTree.root cfg, hty, hp⟩
      | some s =>
        rw [hp] at h
        simp only at h
        cases hc : (index cfg "child").asMap with
        | none =>
          rw [hc] at h
          simp at h
          obtain ⟨rfl, -⟩ := h
          exact ⟨cfg, InTree.root cfg, hty, hc⟩
        | some child =>
          rw [hc] at h
          simp only at h
          obtain ⟨n, hn, hr⟩ := ihc child hc ctx e c h
          exact ⟨n, InTree.child cfg child n hty (asMap_eq_some.mp hc) hn, hr⟩
    by_cases h5 : t = "mount"
    · subst h5
      cases hs : (index cfg "mounts").asSeq with
      | none =>
        rw [validate_unfold, ht] at h
        simp [validators, mountValidator_unfold, hs] at h
        obtain ⟨rfl, -⟩ := h
        exact ⟨cfg, InTree.root cfg, hty, hs⟩
      | some ms =>
        have hms : index cfg "mounts" = Value.seq ms := asSeq_eq_some.mp hs
        rw [validate_mount _ _ ms hty hms] at h
        rcases mountLoop_error_origin ms _ _ _ _ h with
          ⟨rfl, m, hm, hm2⟩ | ⟨rfl, mount, hm, hm2⟩ | ⟨rfl, hnot⟩ | ⟨mount, c0, c1, hm, hv⟩
        · exact ⟨cfg, InTree.root cfg, hty, ms, m, hms, hm, hm2⟩
        · exact ⟨cfg, InTree.root cfg, hty, ms, mount, hms, hm, hm2⟩
        · refine ⟨cfg, InTree.root cfg, hty, ms, hms, ?_⟩
          intro hnd
          exact hnot ⟨hnd, by simp⟩
        · obtain ⟨n, hn, hr⟩ := ihm ms mount hs hm c0 e c1 hv
          exact ⟨n, InTree.entry cfg ms mount n hty hms hm hn, hr⟩
    · have hv : validators t = none := by
        rw [validators_eq_none]
        simp [h1, h2, h3, h4, h5]
      rw [validate_unsupported _ _ t hty hv] at h
      simp at h
      obtain ⟨rfl, -⟩ := h
      exact ⟨cfg, InTree.root cfg, hty, by simp [h1, h2, h3, h4, h5]⟩

/-! ## Mount loops over a concatenation -/

theorem mountPointsOf_append (l1 l2 : List Value) :
    mountPointsOf (l1 ++ l2) = mountPointsOf l1 ++ mountPointsOf l2 := by
  induction l1 with
  | nil => simp [mountPointsOf]
  | cons m rest ih => simp [mountPointsOf, ih]

theorem mountLoop_append_ok (l1 l2 : List Value) :
    ∀ (ctx : validatorContext) (mps : List String) (c : validatorContext),
      mountLoop ctx mps l1 = (none, c) →
      mountLoop ctx mps (l1 ++ l2) = mountLoop c ((mountPointsOf l1).reverse ++ mps) l2 := by
  induction l1 with
  | nil =>
    intro ctx mps c h
    rw [mountLoop_nil] at h
    simp at h
    subst h
    simp [mountPointsOf]
  | cons m rest ih =>
    intro ctx mps c h
    rw [List.cons_append, mountLoop_cons]
    rw [mountLoop_cons] at h
    cases hm : m.asMap with
    | none =>
      rw [hm] at h
      simp at h
    | some mount =>
      rw [hm] at h
      simp only at h ⊢
      cases hmp : (index mount "mountpoint").asString with
      | none =>
        rw [hmp] at h
        simp at h
      | some mp =>
        rw [hmp] at h
        simp only at h ⊢
        by_cases hin : mp ∈ mps
        · rw [if_pos hin] at h
          simp at h
        · rw [if_neg hin] at h ⊢
          rcases hr : validate ctx mount with ⟨_ | err, ctx1⟩
          · rw [hr] at h
            simp only at h ⊢
            rw [ih ctx1 (mp :: mps) c h, mountPointsOf_cons_of rest hm hmp]
            simp
          · rw [hr] at h
            simp at h

/-! ## Mount nodes whose first entries validate -/

/-- When the mount node holding only the entries `pre` validates, the walk of a
mount node holding `pre ++ rest` continues on `rest` with the context and the
mount points left by `pre`. -/
theorem validate_mount_after_ok (cfg cfgPre : Node) (pre rest : List Value)
    (ht : index cfg "type" = Value.str "mount")
    (hm : index cfg "mounts" = Value.seq (pre ++ rest))
    (htp : index cfgPre "type" = Value.str "mount")
    (hmp : index cfgPre "mounts" = Value.seq pre)
    (hok : Validate cfgPre = none) :
    ∃ c, validate { usedPaths := [] } cfg =
      mountLoop c ((mountPointsOf pre).reverse ++ []) rest := by
  unfold Validate at hok
  rw [validate_mount _ _ _ htp hmp] at hok
  rw [validate_mount _ _ _ ht hm]
  rcases hr : mountLoop { usedPaths := [] } [] pre with ⟨r, c⟩
  rw [hr] at hok
  simp only at hok
  subst hok
  exact ⟨c, mountLoop_append_ok pre rest _ _ _ hr⟩

/-! ## Texts of the errors -/

theorem string_append_cancel (a b p q : String) (h : a ++ p ++ b = a ++ q ++ b) : p = q := by
  have h1 := congrArg String.data h
  simp only [String.data_append] at h1
  exact String.ext (List.append_cancel_left (List.append_cancel_right h1))

theorem not_mentions_of_char (msg s : String) (ch : Char) (hs : ch ∈ s.data)
    (hm : ch ∉ msg.data) : ¬ Mentions msg s := by
  rintro ⟨before, after, h⟩
  apply hm
  rw [h]
  simp [String.data_append, hs]

/-! ## Permuted mount entries -/

theorem entriesHaveMountPoint_perm {l1 l2 : List Value} (h : l1.Perm l2) :
    entriesHaveMountPoint l1 = entriesHaveMountPoint l2 := by
  induction h with
  | nil => rfl
  | cons x _ ih => simp [entriesHaveMountPoint, ih]
  | swap x y l =>
    simp only [entriesHaveMountPoint]
    rw [← Bool.and_assoc, ← Bool.and_assoc, Bool.and_comm (match y.asMap with
      | none => false
      | some mount => ((index mount "mountpoint").asString).isSome)]
  | trans _ _ ih1 ih2 => rw [ih1, ih2]

theorem wellShapedEntries_perm {l1 l2 : List Value} (h : l1.Perm l2) :
    wellShapedEntries l1 = wellShapedEntries l2 := by
  induction h with
  | nil => rfl
  | cons x _ ih => simp [wellShapedEntries_cons, ih]
  | swap x y l =>
    simp only [wellShapedEntries_cons]
    rw [← Bool.and_assoc, ← Bool.and_assoc, Bool.and_comm (match y.asMap with
      | none => false
      | some mount => wellShaped mount)]
  | trans _ _ ih1 ih2 => rw [ih1, ih2]

theorem mountPointsOf_perm {l1 l2 : List Value} (h : l1.Perm l2) :
    (mountPointsOf l1).Perm (mountPointsOf l2) := by
  induction h with
  | nil => exact List.Perm.refl _
  | cons x _ ih =>
    simp only [mountPointsOf]
    exact List.Perm.append_left _ ih
  | swap x y l =>
    simp only [mountPointsOf]
    rw [← List.append_assoc, ← List.append_assoc]
    exact List.Perm.append_right _ List.perm_append_comm
  | trans _ _ ih1 ih2 => exact ih1.trans ih2

theorem leafPathsOfEntries_perm {l1 l2 : List Value} (h : l1.Perm l2) :
    (leafPathsOfEntries l1).Perm (leafPathsOfEntries l2) := by
  induction h with
  | nil => exact List.Perm.refl _
  | cons x _ ih =>
    simp only [leafPathsOfEntries_cons]
    exact List.Perm.append_left _ ih
  | swap x y l =>
    simp only [leafPathsOfEntries_cons]
    rw [← List.append_assoc, ← List.append_assoc]
    exact List.Perm.append_right _ List.perm_append_comm
  | trans _ _ ih1 ih2 => exact ih1.trans ih2

theorem wellFormed_mount_perm (cfg1 cfg2 : Node) (ms1 ms2 : List Value)
    (ht1 : index cfg1 "type" = Value.str "mount") (hm1 : index cfg1 "mounts" = Value.seq ms1)
    (ht2 : index cfg2 "type" = Value.str "mount") (hm2 : index cfg2 "mounts" = Value.seq ms2)
    (hperm : ms1.Perm ms2) (h : wellShaped cfg1 = true ∧ (leafPaths cfg1).Nodup) :
    wellShaped cfg2 = true ∧ (leafPaths cfg2).Nodup := by
  obtain ⟨hs, hn⟩ := h
  rw [wellShaped_mount cfg1 ms1 ht1 hm1] at hs
  rw [leafPaths_mount cfg1 ms1 ht1 hm1] at hn
  rw [wellShaped_mount cfg2 ms2 ht2 hm2, leafPaths_mount cfg2 ms2 ht2 hm2]
  simp only [Bool.and_eq_true, decide_eq_true_eq] at hs ⊢
  refine ⟨⟨⟨?_, ?_⟩, ?_⟩, ?_⟩
  · rw [← entriesHaveMountPoint_perm hperm]
    exact hs.1.1
  · exact (mountPointsOf_perm hperm).nodup_iff.mp hs.1.2
  · rw [← wellShapedEntries_perm hperm]
    exact hs.2
  · exact (leafPathsOfEntries_perm hperm).nodup_iff.mp hn

/-! ## Setting a field of a node -/

theorem lookup_filter_ne (n : Node) (k k1 : String) (h : k1 ≠ k) :
    (n.filter (fun kv => kv.1 != k)).lookup k1 = n.lookup k1 := by
  induction n with
  | nil => rfl
  | cons kv rest ih =>
    obtain ⟨a, b⟩ := kv
    by_cases ha : a = k
    · subst ha
      have h1 : (k1 == a) = false := by simpa using h
      simp [List.filter, List.lookup, h1, ih]
    · have h2 : (a != k) = true := by simpa using ha
      simp only [List.filter, h2, List.lookup]
      rw [ih]

theorem index_setField_ne (n : Node) (k k1 : String) (v : Value) (h : k1 ≠ k) :
    index (setField n k v) k1 = index n k1 := by
  have h1 : (k1 == k) = false := by simpa using h
  simp only [index, setField, List.lookup, h1]
  rw [lookup_filter_ne n k k1 h]

theorem index_setField_self (n : Node) (k : String) (v : Value) :
    index (setField n k v) k = v := by
  simp [index, setField, List.lookup]

/-- `validate` reads a node only through its `type`, `path` and `compression`
fields and through its measure and mount validators. -/
theorem validate_congr (a b : Node)
    (ht : index b "type" = index a "type") (hp : index b "path" = index a "path")
    (hc : index b "compression" = index a "compression")
    (hme : ∀ ctx, measureValidator ctx b = measureValidator ctx a)
    (hmo : ∀ ctx, mountValidator ctx b = mountValidator ctx a) :
    ∀ ctx, validate ctx b = validate ctx a := by
  intro ctx
  rw [validate_unfold, validate_unfold, ht]
  cases (index a "type").asString with
  | none => rfl
  | some t =>
    simp only
    cases validators t with
    | none => rfl
    | some val =>
      cases val with
      | badgerdsValidator => simp only [badgerdsValidator, hp]
      | flatfsValidator => simp only [flatfsValidator, hp]
      | leveldsValidator => simp only [leveldsValidator, hp, hc]
      | measureValidator => exact hme ctx
      | mountValidator => exact hmo ctx

theorem mountLoop_congr_at (m m1 : Node) (pre post : List Value)
    (hv : ∀ ctx, validate ctx m1 = validate ctx m)
    (hmp : index m1 "mountpoint" = index m "mountpoint") :
    ∀ (ctx : validatorContext) (mps : List String),
      mountLoop ctx mps (pre ++ Value.map m1 :: post) =
        mountLoop ctx mps (pre ++ Value.map m :: post) := by
  induction pre with
  | nil =>
    intro ctx mps
    rw [List.nil_append, List.nil_append, mountLoop_cons, mountLoop_cons]
    simp only [Value.asMap, hmp, hv]
  | cons e rest ih =>
    intro ctx mps
    rw [List.cons_append, List.cons_append, mountLoop_cons, mountLoop_cons]
    simp only [ih]

/-- Setting a field that no validator reads, at any node of the tree, changes
neither what `validate` returns on the tree nor its `mountpoint`. -/
theorem setAt_validate (k : String) (v : Value) (hk : k ∉ knownFields) (t t1 : Node)
    (h : SetAt k v t t1) :
    (∀ ctx, validate ctx t1 = validate ctx t) ∧
      index t1 "mountpoint" = index t "mountpoint" := by
  simp only [knownFields, List.mem_cons, List.mem_singleton, List.not_mem_nil, or_false,
    not_or] at hk
  obtain ⟨k1, k2, k3, k4, k5, k6, k7⟩ := hk
  induction h with
  | here n =>
    refine ⟨?_, index_setField_ne n k _ v (Ne.symm k5)⟩
    apply validate_congr
    · exact index_setField_ne n k _ v (Ne.symm k1)
    · exact index_setField_ne n k _ v (Ne.symm k2)
    · exact index_setField_ne n k _ v (Ne.symm k3)
    · intro ctx
      rw [measureValidator_unfold, measureValidator_unfold,
        index_setField_ne n k _ v (Ne.symm k6), index_setField_ne n k _ v (Ne.symm k7)]
    · intro ctx
      rw [mountValidator_unfold, mountValidator_unfold,
        index_setField_ne n k _ v (Ne.symm k4)]
  | child r c c1 hc _ ih =>
    refine ⟨?_, index_setField_ne r _ _ _ (by decide)⟩
    apply validate_congr
    · exact index_setField_ne r _ _ _ (by decide)
    · exact index_setField_ne r _ _ _ (by decide)
    · exact index_setField_ne r _ _ _ (by decide)
    · intro ctx
      rw [measureValidator_unfold, measureValidator_unfold,
        index_setField_ne r "child" "prefix" _ (by decide), index_setField_self, hc]
      simp only [Value.asMap, ih.1]
    · intro ctx
      rw [mountValidator_unfold, mountValidator_unfold,
        index_setField_ne r "child" "mounts" _ (by decide)]
  | entry r pre post m m1 hm _ ih =>
    refine ⟨?_, index_setField_ne r _ _ _ (by decide)⟩
    apply validate_congr
    · exact index_setField_ne r _ _ _ (by decide)
    · exact index_setField_ne r _ _ _ (by decide)
    · exact index_setField_ne r _ _ _ (by decide)
    · intro ctx
      rw [measureValidator_unfold, measureValidator_unfold,
        index_setField_ne r "mounts" "prefix" _ (by decide),
        index_setField_ne r "mounts" "child" _ (by decide)]
    · intro ctx
      rw [mountValidator_unfold, mountValidator_unfold, index_setField_self, hm]
      simp only [Value.asSeq]
      exact mountLoop_congr_at m m1 pre post ih.1 ih.2 ctx []

/-! ## A reused context -/

/-- Calling `validate` again on the context left by a first walk of scenario 1
fails: the path is already claimed. `Validate` never does so, it starts every
call from an empty context. -/
theorem validate_reused_context :
    validate (validate { usedPaths := [] } scenario1).2 scenario1 =
      (some (Error.pathInUse "/data/a"), { usedPaths := ["/data/a"] }) := by
  have h : validate { usedPaths := [] } scenario1 = (none, { usedPaths := ["/data/a"] }) := by
    simp [scenario1, validate_flatfs, flatfsValidator, checkPath, index, List.lookup,
      Value.asString]
  rw [h]
  simp [scenario1, validate_flatfs, flatfsValidator, checkPath, index, List.lookup,
    Value.asString]

/-! ## The walk without the path-uniqueness check, and `validate` -/

theorem shapeWalk_unfold (cfg : Node) :
    shapeWalk cfg =
      match (index cfg "type").asString with
      | none => ([], some Error.ErrInvalidType)
      | some t =>
        if t = "badgerds" ∨ t = "flatfs" then
          match (index cfg "path").asString with
          | none => ([], some Error.invalidPathType)
          | some p => ([p], none)
        else if t = "levelds" then
          match (index cfg "path").asString with
          | none => ([], some Error.invalidPathType)
          | some p =>
            match (index cfg "compression").asString with
            | none => ([p], some Error.invalidCompression)
            | some _ => ([p], none)
        else if t = "measure" then
          match (index cfg "prefix").asString with
          | none => ([], some Error.invalidPrefix)
          | some _ =>
            match (index cfg "child").asMap with
            | none => ([], some Error.invalidChild)
            | some child => shapeWalk child
        else if t = "mount" then
          match (index cfg "mounts").asSeq with
          | none => ([], some Error.invalidMounts)
          | some mounts => shapeWalkEntries [] mounts
        else ([], some (Error.unsupportedType t)) := by
  rw [shapeWalk]
  split
  · rfl
  · split
    · rfl
    · split
      · rfl
      · split
        · split
          · rfl
          · split <;> simp_all
        · split
          · split <;> simp_all
          · rfl

theorem shapeWalkEntries_nil (mps : List String) : shapeWalkEntries mps [] = ([], none) := by
  rw [shapeWalkEntries]

theorem shapeWalkEntries_cons (mps : List String) (m : Value) (rest : List Value) :
    shapeWalkEntries mps (m :: rest) =
      match m.asMap with
      | none => ([], some Error.invalidMountsEntry)
      | some mount =>
        match (index mount "mountpoint").asString with
        | none => ([], some Error.invalidMountPoint)
        | some mountPoint =>
          if mountPoint ∈ mps then ([], some Error.multipleMounts)
          else
            match shapeWalk mount with
            | (ps, some e) => (ps, some e)
            | (ps, none) =>
              ((ps ++ (shapeWalkEntries (mountPoint :: mps) rest).1),
                (shapeWalkEntries (mountPoint :: mps) rest).2) := by
  rw [shapeWalkEntries]
  split <;> simp_all

theorem claimAll_append (ps qs : List String) : ∀ used : List String,
    claimAll used (ps ++ qs) =
      match claimAll used ps with
      | (some p, u) => (some p, u)
      | (none, u) => claimAll u qs := by
  induction ps with
  | nil => intro used; simp [claimAll]
  | cons p rest ih =>
    intro used
    simp only [List.cons_append, claimAll]
    by_cases hp : p ∈ used
    · simp [hp]
    · simp only [hp, if_false]
      exact ih (p :: used)

theorem walkResult_nil (used : List String) (e : Option Error) :
    walkResult used ([], e) = (e, { usedPaths := used }) := by
  simp [walkResult, claimAll]

theorem walkResult_single (used : List String) (p : String) (e : Option Error) :
    walkResult used ([p], e) =
      if p ∈ used then (some (Error.pathInUse p), { usedPaths := used })
      else (e, { usedPaths := p :: used }) := by
  by_cases hp : p ∈ used <;> simp [walkResult, claimAll, hp]

theorem checkPath_eq (ctx : validatorContext) (v : Value) :
    checkPath ctx v =
      match v.asString with
      | none => (some Error.invalidPathType, ctx)
      | some p =>
        if p ∈ ctx.usedPaths then (some (Error.pathInUse p), ctx)
        else (none, { usedPaths := p :: ctx.usedPaths }) := by
  unfold checkPath
  rfl

/-- The mount loop is the walk without the path check followed by the claiming
of the declared paths, when `validate` is so on every entry. -/
theorem mountLoop_eq_walkResult (ms : List Value)
    (ih : ∀ mount, Value.map mount ∈ ms → ∀ ctx : validatorContext,
      validate ctx mount = walkResult ctx.usedPaths (shapeWalk mount)) :
    ∀ (ctx : validatorContext) (mps : List String),
      mountLoop ctx mps ms = walkResult ctx.usedPaths (shapeWalkEntries mps ms) := by
  induction ms with
  | nil =>
    intro ctx mps
    rw [mountLoop_nil, shapeWalkEntries_nil, walkResult_nil]
  | cons m rest ihrest =>
    intro ctx mps
    rw [mountLoop_cons, shapeWalkEntries_cons]
    cases hm : m.asMap with
    | none => simp only [walkResult_nil]
    | some mount =>
      have hmem : Value.map mount ∈ m :: rest := by
        rw [asMap_eq_some.mp hm]
        exact List.mem_cons_self _ _
      simp only
      cases hmp : (index mount "mountpoint").asString with
      | none => simp only [walkResult_nil]
      | some mp =>
        simp only
        by_cases hin : mp ∈ mps
        · simp only [hin, if_true, walkResult_nil]
        · simp only [hin, if_false]
          rw [ih mount hmem ctx]
          have hrest := ihrest (fun mt hmt c => ih mt (List.mem_cons_of_mem _ hmt) c)
          rcases hsw : shapeWalk mount with ⟨ps, _ | e⟩
          · simp only
            rcases hca : claimAll ctx.usedPaths ps with ⟨_ | p, u⟩
            · simp only [walkResult, hca, claimAll_append]
              rw [hrest { usedPaths := u } (mp :: mps)]
              simp only [walkResult]
            · simp only [walkResult, hca, claimAll_append]
          · simp only
            rcases hca : claimAll ctx.usedPaths ps with ⟨_ | p, u⟩ <;>
              simp only [walkResult, hca]

/-- `validate` is the walk without the path check followed by the claiming of
the declared paths: the path-in-use error at the first declared path already
claimed, else the first failure of another kind. -/
theorem validate_eq_walkResult : ∀ (cfg : Node) (ctx : validatorContext),
    validate ctx cfg = walkResult ctx.usedPaths (shapeWalk cfg) := by
  intro cfg
  induction cfg using node_induction with
  | step cfg ihc ihm =>
  intro ctx
  rw [validate_unfold, shapeWalk_unfold]
  cases ht : (index cfg "type").asString with
  | none => simp only [walkResult_nil]
  | some t =>
    simp only
    by_cases h1 : t = "badgerds"
    · subst h1
      simp only [validators, badgerdsValidator, checkPath_eq]
      cases (index cfg "path").asString with
      | none => simp [walkResult_nil]
      | some p => by_cases hp : p ∈ ctx.usedPaths <;> simp [walkResult_single, hp]
    by_cases h2 : t = "flatfs"
    · subst h2
      simp only [validators, flatfsValidator, checkPath_eq]
      cases (index cfg "path").asString with
      | none => simp [walkResult_nil]
      | some p => by_cases hp : p ∈ ctx.usedPaths <;> simp [walkResult_single, hp]
    by_cases h3 : t = "levelds"
    · subst h3
      simp only [validators, leveldsValidator, checkPath_eq]
      cases (index cfg "path").asString with
      | none => simp [walkResult_nil]
      | some p =>
        cases (index cfg "compression").asString with
        | none => by_cases hp : p ∈ ctx.usedPaths <;> simp [walkResult_single, hp]
        | some c => by_cases hp : p ∈ ctx.usedPaths <;> simp [walkResult_single, hp]
    by_cases h4 : t = "measure"
    · subst h4
      simp only [validators]
      simp
      rw [measureValidator_unfold]
      cases (index cfg "prefix").asString with
      | none => simp only [walkResult_nil]
      | some s =>
        cases hc : (index cfg "child").asMap with
        | none => simp only [walkResult_nil]
        | some child => exact ihc child hc ctx
    by_cases h5 : t = "mount"
    · subst h5
      simp only [validators]
      simp
      rw [mountValidator_unfold]
      cases hs : (index cfg "mounts").asSeq with
      | none => simp only [walkResult_nil]
      | some ms =>
        exact mountLoop_eq_walkResult ms (fun mount hm c => ihm ms mount hs hm c) ctx []
    · simp only [validators, h1, h2, h3, h4, h5, if_false, false_or, walkResult_nil]

theorem ShapeWalkOK_fail (paths : List String) (e : Error)
    (he : ∀ p, e ≠ Error.pathInUse p) : ShapeWalkOK paths ([], some e) :=
  ⟨List.nil_prefix, fun h => by simp at h, fun p h => he p (Option.some.inj h)⟩

theorem shapeWalkEntries_ok (ms : List Value)
    (ih : ∀ mount, Value.map mount ∈ ms → ShapeWalkOK (leafPaths mount) (shapeWalk mount)) :
    ∀ mps : List String,
      ShapeWalkOK (leafPathsOfEntries ms) (shapeWalkEntries mps ms) := by
  induction ms with
  | nil =>
    intro mps
    rw [shapeWalkEntries_nil, leafPathsOfEntries_nil]
    exact ⟨List.nil_prefix, fun _ => rfl, fun p h => by simp at h⟩
  | cons m rest ihrest =>
    intro mps
    rw [shapeWalkEntries_cons, leafPathsOfEntries_cons]
    cases hm : m.asMap with
    | none => exact ShapeWalkOK_fail _ _ (by intro p; simp)
    | some mount =>
      have hmem : Value.map mount ∈ m :: rest := by
        rw [asMap_eq_some.mp hm]
        exact List.mem_cons_self _ _
      simp only
      cases hmp : (index mount "mountpoint").asString with
      | none => exact ShapeWalkOK_fail _ _ (by intro p; simp)
      | some mp =>
        simp only
        by_cases hin : mp ∈ mps
        · simp only [hin, if_true]
          exact ShapeWalkOK_fail _ _ (by intro p; simp)
        · simp only [hin, if_false]
          obtain ⟨h1, h2, h3⟩ := ih mount hmem
          obtain ⟨r1, r2, r3⟩ :=
            ihrest (fun mt hmt => ih mt (List.mem_cons_of_mem _ hmt)) (mp :: mps)
          rcases hsw : shapeWalk mount with ⟨ps, _ | e⟩
          · rw [hsw] at h2
            have hps : ps = leafPaths mount := h2 rfl
            subst hps
            simp only
            exact ⟨(List.prefix_append_right_inj _).mpr r1, fun h => by rw [r2 h], r3⟩
          · rw [hsw] at h1 h3
            simp only
            exact ⟨h1.trans (List.prefix_append _ _), fun h => by simp at h, h3⟩

theorem shapeWalk_ok : ∀ cfg : Node, ShapeWalkOK (leafPaths cfg) (shapeWalk cfg) := by
  intro cfg
  induction cfg using node_induction with
  | step cfg ihc ihm =>
  rw [shapeWalk_unfold]
  cases ht : (index cfg "type").asString with
  | none => exact ShapeWalkOK_fail _ _ (by intro p; simp)
  | some t =>
    have hty : index cfg "type" = Value.str t := asString_eq_some.mp ht
    simp only
    by_cases h12 : t = "badgerds" ∨ t = "flatfs"
    · simp only [h12, if_true]
      have hl : leafPaths cfg = declaredPath cfg := by
        apply leafPaths_leaf
        rcases h12 with h | h
        · exact Or.inl (h ▸ hty)
        · exact Or.inr (Or.inl (h ▸ hty))
      rw [hl, declaredPath]
      cases (index cfg "path").asString with
      | none => exact ShapeWalkOK_fail _ _ (by intro p; simp)
      | some p => exact ⟨List.prefix_refl _, fun _ => rfl, fun q h => by simp at h⟩
    simp only [h12, if_false]
    by_cases h3 : t = "levelds"
    · simp only [h3, if_true]
      have hl : leafPaths cfg = declaredPath cfg :=
        leafPaths_leaf cfg (Or.inr (Or.inr (h3 ▸ hty)))
      rw [hl, declaredPath]
      cases (index cfg "path").asString with
      | none => exact ShapeWalkOK_fail _ _ (by intro p; simp)
      | some p =>
        cases (index cfg "compression").asString with
        | none => exact ⟨List.prefix_refl _, fun _ => rfl, fun q h => by simp at h⟩
        | some c => exact ⟨List.prefix_refl _, fun _ => rfl, fun q h => by simp at h⟩
    simp only [h3, if_false]
    by_cases h4 : t = "measure"
    · simp only [h4, if_true]
      subst h4
      cases (index cfg "prefix").asString with
      | none => exact ShapeWalkOK_fail _ _ (by intro p; simp)
      | some s =>
        cases hc : (index cfg "child").asMap with
        | none => exact ShapeWalkOK_fail _ _ (by intro p; simp)
        | some child =>
          simp only
          rw [leafPaths_measure cfg child hty (asMap_eq_some.mp hc)]
          exact ihc child hc
    simp only [h4, if_false]
    by_cases h5 : t = "mount"
    · simp only [h5, if_true]
      subst h5
      cases hs : (index cfg "mounts").asSeq with
      | none => exact ShapeWalkOK_fail _ _ (by intro p; simp)
      | some ms =>
        simp only
        rw [leafPaths_mount cfg ms hty (asSeq_eq_some.mp hs)]
        exact shapeWalkEntries_ok ms (fun mount hm => ihm ms mount hs hm) []
    · simp only [h5, if_false]
      exact ShapeWalkOK_fail _ _ (by intro p; simp)

/-- `Validate` in terms of the walk without the path check: the path-in-use
error at the first declared path that is declared a second time, else the
first failure of another kind. -/
theorem Validate_eq_shapeWalk (cfg : Node) :
    Validate cfg =
      match firstRepeated (shapeWalk cfg).1 with
      | some p => some (Error.pathInUse p)
      | none => (shapeWalk cfg).2 := by
  unfold Validate firstRepeated
  rw [validate_eq_walkResult]
  unfold walkResult
  rcases claimAll [] (shapeWalk cfg).1 with ⟨_ | p, u⟩ <;> rfl

theorem shapeWalk_leaf (cfg : Node)
    (h : index cfg "type" = Value.str "badgerds" ∨ index cfg "type" = Value.str "flatfs") :
    shapeWalk cfg =
      match (index cfg "path").asString with
      | none => ([], some Error.invalidPathType)
      | some p => ([p], none) := by
  rw [shapeWalk_unfold]
  rcases h with h | h <;> rw [h] <;> simp [Value.asString]

theorem shapeWalk_mount (cfg : Node) (ms : List Value)
    (h : index cfg "type" = Value.str "mount") (hm : index cfg "mounts" = Value.seq ms) :
    shapeWalk cfg = shapeWalkEntries [] ms := by
  rw [shapeWalk_unfold, h, hm]
  simp [Value.asString, Value.asSeq]

theorem shapeWalk_unsupported (cfg : Node) (t : String)
    (h : index cfg "type" = Value.str t)
    (ht : t ∉ ["badgerds", "flatfs", "levelds", "measure", "mount"]) :
    shapeWalk cfg = ([], some (Error.unsupportedType t)) := by
  simp only [List.mem_cons, List.mem_singleton, List.not_mem_nil, or_false, not_or] at ht
  rw [shapeWalk_unfold, h]
  simp [Value.asString, ht.1, ht.2.1, ht.2.2.1, ht.2.2.2.1, ht.2.2.2.2]

/-! ## The walk through a pointer and the walk on a context value -/

theorem validateAt_unfold (mem : Memory) (ptr : Nat) (cfg : Node) :
    validateAt mem ptr cfg =
      match (index cfg "type").asString with
      | none => (some Error.ErrInvalidType, mem)
      | some t =>
        match validators t with
        | none => (some (Error.unsupportedType t), mem)
        | some Validator.badgerdsValidator => badgerdsValidatorAt mem ptr cfg
        | some Validator.flatfsValidator => flatfsValidatorAt mem ptr cfg
        | some Validator.leveldsValidator => leveldsValidatorAt mem ptr cfg
        | some Validator.measureValidator => measureValidatorAt mem ptr cfg
        | some Validator.mountValidator => mountValidatorAt mem ptr cfg := by
  rw [validateAt]

theorem mountValidatorAt_unfold (mem : Memory) (ptr : Nat) (cfg : Node) :
    mountValidatorAt mem ptr cfg =
      match (index cfg "mounts").asSeq with
      | none => (some Error.invalidMounts, mem)
      | some mounts => mountLoopAt mem ptr [] mounts := by
  rw [mountValidatorAt]
  split <;> simp_all

theorem measureValidatorAt_unfold (mem : Memory) (ptr : Nat) (cfg : Node) :
    measureValidatorAt mem ptr cfg =
      match (index cfg "prefix").asString with
      | none => (some Error.invalidPrefix, mem)
      | some _ =>
        match (index cfg "child").asMap with
        | none => (some Error.invalidChild, mem)
        | some child => validateAt mem ptr child := by
  rw [measureValidatorAt]
  split
  · rfl
  · split <;> simp_all

theorem mountLoopAt_nil (mem : Memory) (ptr : Nat) (mps : List String) :
    mountLoopAt mem ptr mps [] = (none, mem) := by
  rw [mountLoopAt]

theorem mountLoopAt_cons (mem : Memory) (ptr : Nat) (mps : List String) (m : Value)
    (rest : List Value) :
    mountLoopAt mem ptr mps (m :: rest) =
      match m.asMap with
      | none => (some Error.invalidMountsEntry, mem)
      | some mount =>
        match (index mount "mountpoint").asString with
        | none => (some Error.invalidMountPoint, mem)
        | some mountPoint =>
          if mountPoint ∈ mps then (some Error.multipleMounts, mem)
          else
            match validateAt mem ptr mount with
            | (some err, mem1) => (some err, mem1)
            | (none, mem1) => mountLoopAt mem1 ptr (mountPoint :: mps) rest := by
  rw [mountLoopAt]
  split <;> simp_all

theorem Memory.write_read (mem : Memory) (ptr : Nat) : mem.write ptr (mem.read ptr) = mem := by
  cases mem
  simp [Memory.write, Memory.read]

theorem Memory.read_write (mem : Memory) (ptr : Nat) (c : validatorContext) :
    (mem.write ptr c).read ptr = c := by
  simp [Memory.write, Memory.read]

theorem Memory.read_write_ne (mem : Memory) (ptr q : Nat) (c : validatorContext)
    (h : q ≠ ptr) : (mem.write ptr c).read q = mem.read q := by
  simp [Memory.write, Memory.read, Function.update_noteq h]

theorem Memory.write_write (mem : Memory) (ptr : Nat) (c d : validatorContext) :
    (mem.write ptr c).write ptr d = mem.write ptr d := by
  simp [Memory.write]

theorem Memory.after_same (mem : Memory) (ptr : Nat) (e : Option Error) :
    mem.after ptr (e, mem.read ptr) = (e, mem) := by
  simp [Memory.after, Memory.write_read]

theorem checkPathAt_eq (mem : Memory) (ptr : Nat) (v : Value) :
    checkPathAt mem ptr v = mem.after ptr (checkPath (mem.read ptr) v) := by
  unfold checkPathAt checkPath
  cases v.asString with
  | none => simp [Memory.after_same]
  | some p =>
    by_cases hp : p ∈ (mem.read ptr).usedPaths
    · simp [hp, Memory.after_same]
    · simp [hp, Memory.after]

theorem flatfsValidatorAt_eq (mem : Memory) (ptr : Nat) (cfg : Node) :
    flatfsValidatorAt mem ptr cfg = mem.after ptr (flatfsValidator (mem.read ptr) cfg) := by
  unfold flatfsValidatorAt flatfsValidator
  rw [checkPathAt_eq]
  rcases checkPath (mem.read ptr) (index cfg "path") with ⟨_ | e, c⟩ <;> rfl

theorem badgerdsValidatorAt_eq (mem : Memory) (ptr : Nat) (cfg : Node) :
    badgerdsValidatorAt mem ptr cfg = mem.after ptr (badgerdsValidator (mem.read ptr) cfg) := by
  unfold badgerdsValidatorAt badgerdsValidator
  rw [checkPathAt_eq]
  rcases checkPath (mem.read ptr) (index cfg "path") with ⟨_ | e, c⟩ <;> rfl

theorem leveldsValidatorAt_eq (mem : Memory) (ptr : Nat) (cfg : Node) :
    leveldsValidatorAt mem ptr cfg = mem.after ptr (leveldsValidator (mem.read ptr) cfg) := by
  unfold leveldsValidatorAt leveldsValidator
  rw [checkPathAt_eq]
  rcases checkPath (mem.read ptr) (index cfg "path") with ⟨_ | e, c⟩
  · simp only [Memory.after]
    cases (index cfg "compression").asString <;> rfl
  · rfl

theorem mountLoopAt_eq (ms : List Value)
    (ih : ∀ mount, Value.map mount ∈ ms → ∀ (mem : Memory) (ptr : Nat),
      validateAt mem ptr mount = mem.after ptr (validate (mem.read ptr) mount)) :
    ∀ (mem : Memory) (ptr : Nat) (mps : List String),
      mountLoopAt mem ptr mps ms = mem.after ptr (mountLoop (mem.read ptr) mps ms) := by
  induction ms with
  | nil =>
    intro mem ptr mps
    rw [mountLoopAt_nil, mountLoop_nil, Memory.after_same]
  | cons m rest ihrest =>
    intro mem ptr mps
    rw [mountLoopAt_cons, mountLoop_cons]
    cases hm : m.asMap with
    | none => simp only [Memory.after_same]
    | some mount =>
      have hmem : Value.map mount ∈ m :: rest := by
        rw [asMap_eq_some.mp hm]
        exact List.mem_cons_self _ _
      simp only
      cases hmp : (index mount "mountpoint").asString with
      | none => simp only [Memory.after_same]
      | some mp =>
        simp only
        by_cases hin : mp ∈ mps
        · simp only [hin, if_true, Memory.after_same]
        · simp only [hin, if_false]
          rw [ih mount hmem mem ptr]
          rcases validate (mem.read ptr) mount with ⟨_ | e, c⟩
          · simp only [Memory.after]
            rw [ihrest (fun mt hmt => ih mt (List.mem_cons_of_mem _ hmt))]
            simp only [Memory.after, Memory.read_write, Memory.write_write]
          · simp only [Memory.after]

/-- The walk through a pointer is the walk on the object it points to: it
returns the same error and changes nothing in memory but that object. -/
theorem validateAt_eq : ∀ (cfg : Node) (mem : Memory) (ptr : Nat),
    validateAt mem ptr cfg = mem.after ptr (validate (mem.read ptr) cfg) := by
  intro cfg
  induction cfg using node_induction with
  | step cfg ihc ihm =>
  intro mem ptr
  rw [validateAt_unfold, validate_unfold]
  cases (index cfg "type").asString with
  | none => simp only [Memory.after_same]
  | some t =>
    simp only
    cases validators t with
    | none => simp only [Memory.after_same]
    | some val =>
      cases val with
      | badgerdsValidator => exact badgerdsValidatorAt_eq mem ptr cfg
      | flatfsValidator => exact flatfsValidatorAt_eq mem ptr cfg
      | leveldsValidator => exact leveldsValidatorAt_eq mem ptr cfg
      | measureValidator =>
        simp only
        rw [measureValidatorAt_unfold, measureValidator_unfold]
        cases (index cfg "prefix").asString with
        | none => simp only [Memory.after_same]
        | some s =>
          cases hc : (index cfg "child").asMap with
          | none => simp only [Memory.after_same]
          | some child => exact ihc child hc mem ptr
      | mountValidator =>
        simp only
        rw [mountValidatorAt_unfold, mountValidator_unfold]
        cases hs : (index cfg "mounts").asSeq with
        | none => simp only [Memory.after_same]
        | some ms =>
          exact mountLoopAt_eq ms (fun mount hm => ihm ms mount hs hm) mem ptr []

theorem ValidateAt_eq (mem : Memory) (cfg : Node) :
    ValidateAt mem cfg =
      (Validate cfg,
        (mem.alloc { usedPaths := [] }).2.write mem.next
          (validate { usedPaths := [] } cfg).2) := by
  unfold ValidateAt Validate
  simp only [Memory.alloc]
  rw [validateAt_eq]
  simp [Memory.after, Memory.read]

theorem ValidateAt_next (mem : Memory) (cfg : Node) :
    (ValidateAt mem cfg).2.next = mem.next + 1 := by
  rw [ValidateAt_eq]
  rfl

theorem ValidateAt_frame (mem : Memory) (cfg : Node) (ptr : Nat) (h : ptr < mem.next) :
    (ValidateAt mem cfg).2.read ptr = mem.read ptr := by
  rw [ValidateAt_eq]
  have hne : ptr ≠ mem.next := Nat.ne_of_lt h
  simp [Memory.write, Memory.read, Memory.alloc, Function.update_noteq hne]

theorem ValidateRun_eq (calls : List Node) : ∀ mem : Memory,
    (ValidateRun mem calls).1 = calls.map Validate := by
  induction calls with
  | nil => intro mem; rfl
  | cons cfg rest ih =>
    intro mem
    simp only [ValidateRun, List.map_cons]
    rw [← ih (ValidateAt mem cfg).2, ValidateAt_eq]

/-! ## Properties of the specification -/

/-- C1: `Validate` succeeds if and only if the configuration tree is well
formed: every node of the tree has a registered string `type` and the required
fields of that type with the required shape, the `mountpoint` values of the
direct entries of each mount node are pairwise distinct, and the `path` values
of all leaf nodes of the tree are pairwise distinct. -/
theorem Validate_succeeds_iff_wellFormed (cfg : Node) :
    Validate cfg = none ↔ WellFormed cfg :=
  ⟨wellFormed_of_Validate_none, fun h => Validate_none_of_wellFormed h.1 h.2⟩

/-- C2 (as stated, refuted): the tree `samePathSameMountPoint` contains two
flatfs leaves declaring the same path `/a`, yet `Validate` does not return the
path-in-use error: the repeated mount point of the second entry is reported
first. -/
theorem duplicate_path_masked :
    leafPaths samePathSameMountPoint = ["/a", "/a"] ∧
      Validate samePathSameMountPoint = some Error.multipleMounts := by
  refine ⟨?_, ?_⟩
  · simp [samePathSameMountPoint, mountOf, flatfsEntry, leafPaths_mount, leafPaths_leaf,
      leafPathsOfEntries_cons, leafPathsOfEntries_nil, declaredPath, index, List.lookup,
      Value.asString, Value.asMap]
  · apply Validate_of_validate (c := ⟨["/a"]⟩)
    simp [samePathSameMountPoint, mountOf, flatfsEntry, validate_flatfs, validate_mount,
      mountLoop_cons, mountLoop_nil, flatfsValidator, checkPath, index, List.lookup,
      Value.asString, Value.asMap]

/-- C2 (amended): a tree that contains two leaf nodes declaring the same
`path` is rejected by `Validate`. The error is the path-in-use error, naming
the first path that is declared a second time in walk order, when that second
declaration is reached before any failure of another kind (in particular
when the tree is otherwise well shaped); otherwise `Validate` returns that
earlier failure, which is not a path-in-use error. -/
theorem duplicate_path_rejected (cfg : Node) (hdup : ¬ (leafPaths cfg).Nodup) :
    Validate cfg ≠ none ∧
      (∀ p, firstRepeated (shapeWalk cfg).1 = some p →
        Validate cfg = some (Error.pathInUse p) ∧ 2 ≤ (leafPaths cfg).count p) ∧
      (firstRepeated (shapeWalk cfg).1 = none →
        Validate cfg = (shapeWalk cfg).2 ∧ ∀ p, Validate cfg ≠ some (Error.pathInUse p)) ∧
      (wellShaped cfg = true →
        ∃ p, Validate cfg = some (Error.pathInUse p) ∧ 2 ≤ (leafPaths cfg).count p) := by
  have hne : Validate cfg ≠ none := fun h => hdup (wellFormed_of_Validate_none h).2
  have hchar := Validate_eq_shapeWalk cfg
  refine ⟨hne, ?_, ?_, fun hs => ?_⟩
  · intro p hp
    rw [hp] at hchar
    exact ⟨hchar, pathInUse_not_nodup hchar⟩
  · intro hn
    rw [hn] at hchar
    refine ⟨hchar, fun p hp => ?_⟩
    rw [hchar] at hp
    exact (shapeWalk_ok cfg).2.2 p hp
  · cases hr : Validate cfg with
    | none => exact absurd hr hne
    | some e =>
      by_cases hp : ∃ p, e = Error.pathInUse p
      · obtain ⟨p, rfl⟩ := hp
        exact ⟨p, rfl, pathInUse_not_nodup hr⟩
      · exfalso
        obtain ⟨v, _, _, _, he⟩ := Validate_walk cfg
        exact (he e hr).2 (fun p hpe => hp ⟨p, hpe⟩) hs

/-- C2 (amended) on three trees: scenario 4; scenario 4 followed by an entry of
unsupported type, which is not reached; and two mounts of `/a` under the same
mount point, where the repeated mount point comes first. -/
theorem duplicate_path_rejected_witness :
    (¬ (leafPaths scenario4).Nodup ∧ wellShaped scenario4 = true ∧
      ∃ p, Validate scenario4 = some (Error.pathInUse p) ∧ 2 ≤ (leafPaths scenario4).count p) ∧
    (¬ (leafPaths scenario4ThenBadType).Nodup ∧ wellShaped scenario4ThenBadType = false ∧
      firstRepeated (shapeWalk scenario4ThenBadType).1 = some "/a" ∧
      Validate scenario4ThenBadType = some (Error.pathInUse "/a")) ∧
    (¬ (leafPaths samePathSameMountPoint).Nodup ∧
      firstRepeated (shapeWalk samePathSameMountPoint).1 = none ∧
      Validate samePathSameMountPoint = (shapeWalk samePathSameMountPoint).2 ∧
      (shapeWalk samePathSameMountPoint).2 = some Error.multipleMounts) := by
  have hbad : index [("type", Value.str "s3ds"), ("mountpoint", Value.str "/z")] "type"
      = Value.str "s3ds" := by simp [index, List.lookup]
  refine ⟨?_, ?_, ?_⟩
  · have hl : leafPaths scenario4 = ["/a", "/a"] := by
      simp [scenario4, mountOf, flatfsEntry, leafPaths_mount, leafPaths_leaf,
        leafPathsOfEntries_cons, leafPathsOfEntries_nil, declaredPath, index, List.lookup,
        Value.asString, Value.asMap]
    have hd : ¬ (leafPaths scenario4).Nodup := by
      rw [hl]
      decide
    have hs : wellShaped scenario4 = true := by
      simp [scenario4, mountOf, flatfsEntry, wellShaped_mount, wellShaped_leaf,
        wellShapedEntries_cons, wellShapedEntries_nil, entriesHaveMountPoint, mountPointsOf,
        index, List.lookup, Value.asString, Value.asMap]
    exact ⟨hd, hs, (duplicate_path_rejected scenario4 hd).2.2.2 hs⟩
  · have hlb : leafPaths [("type", Value.str "s3ds"), ("mountpoint", Value.str "/z")] = [] := by
      rw [leafPaths_unfold, hbad]
      simp [Value.asString]
    have hl : leafPaths scenario4ThenBadType = ["/a", "/a"] := by
      simp [scenario4ThenBadType, mountOf, flatfsEntry, leafPaths_mount, leafPaths_leaf,
        leafPathsOfEntries_cons, leafPathsOfEntries_nil, declaredPath, index, List.lookup,
        Value.asString, Value.asMap, hlb]
    have hd : ¬ (leafPaths scenario4ThenBadType).Nodup := by
      rw [hl]
      decide
    have hwb : wellShaped [("type", Value.str "s3ds"), ("mountpoint", Value.str "/z")]
        = false := by
      rw [wellShaped_unfold, hbad]
      simp [Value.asString]
    have hs : wellShaped scenario4ThenBadType = false := by
      simp [scenario4ThenBadType, mountOf, flatfsEntry, wellShaped_mount, wellShaped_leaf,
        wellShapedEntries_cons, wellShapedEntries_nil, entriesHaveMountPoint, mountPointsOf,
        index, List.lookup, Value.asString, Value.asMap, hwb]
    have hsb := shapeWalk_unsupported _ "s3ds" hbad (by decide)
    have hsw : shapeWalk scenario4ThenBadType
        = (["/a", "/a"], some (Error.unsupportedType "s3ds")) := by
      simp [scenario4ThenBadType, mountOf, flatfsEntry, shapeWalk_mount, shapeWalk_leaf,
        shapeWalkEntries_cons, shapeWalkEntries_nil, index, List.lookup, Value.asString,
        Value.asMap, hsb]
    have hf : firstRepeated (shapeWalk scenario4ThenBadType).1 = some "/a" := by
      rw [hsw]
      decide
    exact ⟨hd, hs, hf, ((duplicate_path_rejected scenario4ThenBadType hd).2.1 "/a" hf).1⟩
  · have hl : leafPaths samePathSameMountPoint = ["/a", "/a"] := by
      simp [samePathSameMountPoint, mountOf, flatfsEntry, leafPaths_mount, leafPaths_leaf,
        leafPathsOfEntries_cons, leafPathsOfEntries_nil, declaredPath, index, List.lookup,
        Value.asString, Value.asMap]
    have hd : ¬ (leafPaths samePathSameMountPoint).Nodup := by
      rw [hl]
      decide
    have hsw : shapeWalk samePathSameMountPoint = (["/a"], some Error.multipleMounts) := by
      simp [samePathSameMountPoint, mountOf, flatfsEntry, shapeWalk_mount, shapeWalk_leaf,
        shapeWalkEntries_cons, shapeWalkEntries_nil, index, List.lookup, Value.asString,
        Value.asMap]
    have hf : firstRepeated (shapeWalk samePathSameMountPoint).1 = none := by
      rw [hsw]
      decide
    exact ⟨hd, hf, ((duplicate_path_rejected samePathSameMountPoint hd).2.2.1 hf).1,
      by rw [hsw]⟩

/-- C3: when the `path` values of all leaf nodes of the tree are pairwise
distinct, `Validate` never returns the path-in-use error. -/
theorem distinct_paths_no_pathInUse (cfg : Node) (h : (leafPaths cfg).Nodup) (p : String) :
    Validate cfg ≠ some (Error.pathInUse p) := by
  intro hr
  have h2 := pathInUse_not_nodup hr
  have h1 := List.nodup_iff_count_le_one.mp h p
  omega

/-- C3 on scenario 5, whose leaf paths `/a`, `/b` are distinct. -/
theorem distinct_paths_no_pathInUse_witness :
    (leafPaths scenario5).Nodup ∧ Validate scenario5 ≠ some (Error.pathInUse "/a") := by
  have hl : leafPaths scenario5 = ["/a", "/b"] := by
    simp [scenario5, mountOf, flatfsEntry, leafPaths_mount, leafPaths_leaf,
      leafPathsOfEntries_cons, leafPathsOfEntries_nil, declaredPath, index, List.lookup,
      Value.asString, Value.asMap]
  have hd : (leafPaths scenario5).Nodup := by
    rw [hl]
    decide
  exact ⟨hd, distinct_paths_no_pathInUse scenario5 hd "/a"⟩

/-- C4 (as stated, refuted): the first and the third entry of the mount node
`pathThenMountPoint` have the same mount point `/x`, yet `Validate` does not
return the duplicate-mount-point error: the second entry fails first. -/
theorem duplicate_mountPoint_masked :
    mountPointsOf [flatfsEntry "/a" "/x", flatfsEntry "/a" "/y", flatfsEntry "/b" "/x"]
        = ["/x", "/y", "/x"] ∧
      Validate pathThenMountPoint = some (Error.pathInUse "/a") := by
  refine ⟨?_, ?_⟩
  · simp [mountPointsOf, flatfsEntry, index, List.lookup, Value.asString, Value.asMap]
  · apply Validate_of_validate (c := ⟨["/a"]⟩)
    simp [pathThenMountPoint, mountOf, flatfsEntry, validate_flatfs, validate_mount,
      mountLoop_cons, mountLoop_nil, flatfsValidator, checkPath, index, List.lookup,
      Value.asString, Value.asMap]

/-- C4 (amended): a mount node in which an entry has the same `mountpoint`
string as an earlier entry is rejected by `Validate`; when the entries before
it validate (`Validate` succeeds on the mount node holding only them) the
error is the duplicate-mount-point error. -/
theorem duplicate_mountPoint_rejected (cfg : Node) (pre post : List Value) (mount : Node)
    (s : String)
    (ht : index cfg "type" = Value.str "mount")
    (hm : index cfg "mounts" = Value.seq (pre ++ Value.map mount :: post))
    (hs : index mount "mountpoint" = Value.str s)
    (hdup : s ∈ mountPointsOf pre) :
    Validate cfg ≠ none ∧
      ∀ cfgPre : Node, index cfgPre "type" = Value.str "mount" →
        index cfgPre "mounts" = Value.seq pre → Validate cfgPre = none →
        Validate cfg = some Error.multipleMounts := by
  have hsp : (index mount "mountpoint").asString = some s := asString_eq_some.mpr hs
  constructor
  · intro h
    have hw := (wellFormed_of_Validate_none h).1
    rw [wellShaped_mount cfg _ ht hm] at hw
    simp only [Bool.and_eq_true, decide_eq_true_eq] at hw
    have hnd := hw.1.2
    rw [mountPointsOf_append,
      mountPointsOf_cons_of (m := Value.map mount) post rfl hsp] at hnd
    have := (List.nodup_append.mp hnd).2.2
    exact this hdup (List.mem_cons_self _ _)
  · intro cfgPre htp hmp hok
    unfold Validate at hok ⊢
    rw [validate_mount _ _ _ htp hmp] at hok
    rw [validate_mount _ _ _ ht hm]
    rcases hr : mountLoop { usedPaths := [] } [] pre with ⟨r, c⟩
    rw [hr] at hok
    simp only at hok
    subst hok
    rw [mountLoop_append_ok pre _ _ _ _ hr, mountLoop_cons]
    simp [Value.asMap, hsp, hdup]

/-- C4 (amended) on scenario 5: the second entry repeats the mount point `/x`
of the first, which validates on its own. -/
theorem duplicate_mountPoint_rejected_witness :
    index scenario5 "type" = Value.str "mount" ∧
      index scenario5 "mounts" = Value.seq ([flatfsEntry "/a" "/x"] ++
        Value.map [("type", Value.str "flatfs"), ("path", Value.str "/b"),
          ("mountpoint", Value.str "/x")] :: []) ∧
      "/x" ∈ mountPointsOf [flatfsEntry "/a" "/x"] ∧
      Validate (mountOf [flatfsEntry "/a" "/x"]) = none ∧
      Validate scenario5 ≠ none ∧ Validate scenario5 = some Error.multipleMounts := by
  have h1 : index scenario5 "type" = Value.str "mount" := by
    simp [scenario5, mountOf, index, List.lookup]
  have h2 : index scenario5 "mounts" = Value.seq ([flatfsEntry "/a" "/x"] ++
      Value.map [("type", Value.str "flatfs"), ("path", Value.str "/b"),
        ("mountpoint", Value.str "/x")] :: []) := by
    simp [scenario5, mountOf, flatfsEntry, index, List.lookup]
  have h3 : index [("type", Value.str "flatfs"), ("path", Value.str "/b"),
      ("mountpoint", Value.str "/x")] "mountpoint" = Value.str "/x" := by
    simp [index, List.lookup]
  have h4 : "/x" ∈ mountPointsOf [flatfsEntry "/a" "/x"] := by
    simp [mountPointsOf, flatfsEntry, index, List.lookup, Value.asString, Value.asMap]
  have h5 : Validate (mountOf [flatfsEntry "/a" "/x"]) = none := by
    apply Validate_of_validate (c := ⟨["/a"]⟩)
    simp [mountOf, flatfsEntry, validate_flatfs, validate_mount, mountLoop_cons,
      mountLoop_nil, flatfsValidator, checkPath, index, List.lookup, Value.asString,
      Value.asMap]
  have key := duplicate_mountPoint_rejected scenario5 [flatfsEntry "/a" "/x"] [] _ "/x"
    h1 h2 h3 h4
  exact ⟨h1, h2, h4, h5, key.1,
    key.2 (mountOf [flatfsEntry "/a" "/x"]) (by simp [mountOf, index, List.lookup])
      (by simp [mountOf, index, List.lookup]) h5⟩

/-- C5: mount-point uniqueness is local to one mount node. `Validate` returns
the duplicate-mount-point error only when some mount node of the tree has two
direct entries with the same `mountpoint`; and a tree that is well formed, the
mount points being required distinct only among the direct entries of each
mount node, validates, however mount points repeat across different mount
nodes. -/
theorem mountPoint_uniqueness_local (cfg : Node) :
    (Validate cfg = some Error.multipleMounts →
      ∃ n ms, InTree cfg n ∧ index n "type" = Value.str "mount" ∧
        index n "mounts" = Value.seq ms ∧ ¬ (mountPointsOf ms).Nodup) ∧
    (WellFormed cfg → Validate cfg = none) := by
  refine ⟨fun h => ?_, fun h => Validate_none_of_wellFormed h.1 h.2⟩
  unfold Validate at h
  obtain ⟨n, hn, hty, ms, hms, hnd⟩ :=
    validate_error_origin cfg _ Error.multipleMounts
      (validate { usedPaths := [] } cfg).2 (by rw [← h])
  exact ⟨n, ms, hn, hty, hms, hnd⟩

/-- C5 on a nested mount that reuses the mount point `/x` of its parent. -/
theorem mountPoint_uniqueness_local_witness :
    WellFormed nestedReuse ∧ Validate nestedReuse = none := by
  have hw : WellFormed nestedReuse := by
    constructor
    · simp [nestedReuse, mountOf, flatfsEntry, wellShaped_mount, wellShaped_leaf,
        wellShapedEntries_cons, wellShapedEntries_nil, entriesHaveMountPoint, mountPointsOf,
        index, List.lookup, Value.asString, Value.asMap]
    · have hl : leafPaths nestedReuse = ["/a"] := by
        simp [nestedReuse, mountOf, flatfsEntry, leafPaths_mount, leafPaths_leaf,
          leafPathsOfEntries_cons, leafPathsOfEntries_nil, declaredPath, index, List.lookup,
          Value.asString, Value.asMap]
      rw [hl]
      decide
  exact ⟨hw, (mountPoint_uniqueness_local nestedReuse).2 hw⟩

/-- C6: a node whose `type` is not a string (the field is absent, or holds a
value of another kind), whatever its other fields, makes `Validate` return
exactly `ErrInvalidType`. -/
theorem missing_type_ErrInvalidType (cfg : Node)
    (h : ∀ s, index cfg "type" ≠ Value.str s) :
    Validate cfg = some Error.ErrInvalidType := by
  have hn : (index cfg "type").asString = none := by
    cases hv : (index cfg "type").asString with
    | none => rfl
    | some s => exact absurd (asString_eq_some.mp hv) (h s)
  exact Validate_of_validate (validate_invalidType _ cfg hn)

/-- C6 on the empty map and on a node whose `type` is a number. -/
theorem missing_type_ErrInvalidType_witness :
    Validate [] = some Error.ErrInvalidType ∧
      Validate [("type", Value.num 3), ("path", Value.str "/data/a")]
        = some Error.ErrInvalidType := by
  constructor
  · exact missing_type_ErrInvalidType [] (by simp [index, List.lookup])
  · exact missing_type_ErrInvalidType _ (by simp [index, List.lookup])

/-- C7: a node whose `type` is a string `t` outside the five registered names
(the empty string included) makes `Validate` fail with the unsupported-type
error, whose text is "unsupported type entry in config: " followed by `t`; and
`Validate` returns that error only when `t` is not registered and is the
`type` of some node of the tree. -/
theorem unsupported_type_error (cfg : Node) (t : String) :
    (index cfg "type" = Value.str t →
      t ∉ ["badgerds", "flatfs", "levelds", "measure", "mount"] →
      Validate cfg = some (Error.unsupportedType t) ∧
        (Error.unsupportedType t).message = "unsupported type entry in config: " ++ t) ∧
    (Validate cfg = some (Error.unsupportedType t) →
      t ∉ ["badgerds", "flatfs", "levelds", "measure", "mount"] ∧
        ∃ n, InTree cfg n ∧ index n "type" = Value.str t) := by
  constructor
  · intro ht hreg
    exact ⟨Validate_of_validate (validate_unsupported _ cfg t ht (validators_eq_none.mpr hreg)),
      rfl⟩
  · intro h
    unfold Validate at h
    obtain ⟨n, hn, hty, hreg⟩ :=
      validate_error_origin cfg _ (Error.unsupportedType t)
        (validate { usedPaths := [] } cfg).2 (by rw [← h])
    exact ⟨hreg, n, hn, hty⟩

/-- C7 on a node whose `type` is the empty string. -/
theorem unsupported_type_error_witness :
    index [("type", Value.str "")] "type" = Value.str "" ∧
      "" ∉ ["badgerds", "flatfs", "levelds", "measure", "mount"] ∧
      Validate [("type", Value.str "")] = some (Error.unsupportedType "") ∧
      (Error.unsupportedType "").message = "unsupported type entry in config: " := by
  have h1 : index [("type", Value.str "")] "type" = Value.str "" := by
    simp [index, List.lookup]
  have h2 : "" ∉ ["badgerds", "flatfs", "levelds", "measure", "mount"] := by decide
  have key := (unsupported_type_error [("type", Value.str "")] "").1 h1 h2
  exact ⟨h1, h2, key.1, key.2⟩

/-- C8: a leaf node with its required fields present and correctly typed
validates: badgerds or flatfs with any string `path`, levelds with any string
`path` and any string `compression`, whatever other fields the node has. -/
theorem valid_leaf_succeeds (cfg : Node) (t p : String)
    (ht : index cfg "type" = Value.str t) (hp : index cfg "path" = Value.str p)
    (hk : t = "badgerds" ∨ t = "flatfs" ∨
      (t = "levelds" ∧ ∃ c, index cfg "compression" = Value.str c)) :
    Validate cfg = none := by
  rcases hk with rfl | rfl | ⟨rfl, c, hc⟩
  · apply Validate_of_validate (c := ⟨[p]⟩)
    rw [validate_badgerds _ _ ht]
    simp [badgerdsValidator, checkPath, hp, Value.asString]
  · apply Validate_of_validate (c := ⟨[p]⟩)
    rw [validate_flatfs _ _ ht]
    simp [flatfsValidator, checkPath, hp, Value.asString]
  · apply Validate_of_validate (c := ⟨[p]⟩)
    rw [validate_levelds _ _ ht]
    simp [leveldsValidator, checkPath, hp, hc, Value.asString]

/-- C8 on scenario 1. -/
theorem valid_leaf_succeeds_witness :
    index scenario1 "type" = Value.str "flatfs" ∧
      index scenario1 "path" = Value.str "/data/a" ∧ Validate scenario1 = none := by
  have h1 : index scenario1 "type" = Value.str "flatfs" := by
    simp [scenario1, index, List.lookup]
  have h2 : index scenario1 "path" = Value.str "/data/a" := by
    simp [scenario1, index, List.lookup]
  exact ⟨h1, h2, valid_leaf_succeeds scenario1 "flatfs" "/data/a" h1 h2 (Or.inr (Or.inl rfl))⟩

/-- C9: a leaf node lacking a correctly typed required field fails with the
error of that field: flatfs or badgerds without a string `path` gives the
`path` type error; levelds with a string `path` but without a string
`compression` gives the `compression` error, which differs from the `path`
error (as a value and in its text). -/
theorem leaf_missing_field_error (cfg : Node) :
    ((index cfg "type" = Value.str "flatfs" ∨ index cfg "type" = Value.str "badgerds") →
      (index cfg "path").asString = none →
      Validate cfg = some Error.invalidPathType) ∧
    (index cfg "type" = Value.str "levelds" →
      (∃ p, index cfg "path" = Value.str p) →
      (index cfg "compression").asString = none →
      Validate cfg = some Error.invalidCompression) ∧
    Error.invalidCompression ≠ Error.invalidPathType ∧
    Error.invalidCompression.message ≠ Error.invalidPathType.message := by
  refine ⟨?_, ?_, by decide, by decide⟩
  · rintro (ht | ht) hp
    · apply Validate_of_validate (c := ⟨[]⟩)
      rw [validate_flatfs _ _ ht]
      simp [flatfsValidator, checkPath, hp]
    · apply Validate_of_validate (c := ⟨[]⟩)
      rw [validate_badgerds _ _ ht]
      simp [badgerdsValidator, checkPath, hp]
  · rintro ht ⟨p, hp⟩ hc
    have hp1 : (index cfg "path").asString = some p := asString_eq_some.mpr hp
    apply Validate_of_validate (c := ⟨[p]⟩)
    rw [validate_levelds _ _ ht]
    simp [leveldsValidator, checkPath, hp1, hc]

/-- C9 on scenarios 2 and 3. -/
theorem leaf_missing_field_error_witness :
    Validate scenario2 = some Error.invalidPathType ∧
      Validate scenario3 = some Error.invalidCompression := by
  constructor
  · exact (leaf_missing_field_error scenario2).1
      (Or.inl (by simp [scenario2, index, List.lookup]))
      (by simp [scenario2, index, List.lookup, Value.asString])
  · exact (leaf_missing_field_error scenario3).2.1
      (by simp [scenario3, index, List.lookup])
      ⟨"/data/a", by simp [scenario3, index, List.lookup]⟩
      (by simp [scenario3, index, List.lookup, Value.asString])

/-- C10: fail-fast in a mount node: when `Validate` fails with error `E` on a
mount node whose `mounts` is `pre ++ [e]`, it fails with the same error `E` on
the mount node whose `mounts` is `pre ++ [e] ++ post`, for every `post`. -/
theorem mount_fail_fast (cfg1 cfg2 : Node) (pre post : List Value) (e : Value) (E : Error)
    (ht1 : index cfg1 "type" = Value.str "mount")
    (hm1 : index cfg1 "mounts" = Value.seq (pre ++ [e]))
    (ht2 : index cfg2 "type" = Value.str "mount")
    (hm2 : index cfg2 "mounts" = Value.seq (pre ++ [e] ++ post))
    (h : Validate cfg1 = some E) :
    Validate cfg2 = some E := by
  unfold Validate at h ⊢
  rw [validate_mount _ _ _ ht1 hm1] at h
  rw [validate_mount _ _ _ ht2 hm2]
  rcases hr : mountLoop { usedPaths := [] } [] (pre ++ [e]) with ⟨r, c⟩
  rw [hr] at h
  simp only at h
  subst h
  rw [mountLoop_append_fail _ post _ _ _ _ hr]

/-- C10 on scenario 4 and its extension by one more entry. -/
theorem mount_fail_fast_witness :
    Validate scenario4 = some (Error.pathInUse "/a") ∧
      Validate scenario4Extended = some (Error.pathInUse "/a") := by
  have h : Validate scenario4 = some (Error.pathInUse "/a") := by
    apply Validate_of_validate (c := ⟨["/a"]⟩)
    simp [scenario4, mountOf, flatfsEntry, validate_flatfs, validate_mount, mountLoop_cons,
      mountLoop_nil, flatfsValidator, checkPath, index, List.lookup, Value.asString,
      Value.asMap]
  refine ⟨h, ?_⟩
  exact mount_fail_fast scenario4 scenario4Extended [flatfsEntry "/a" "/x"]
    [flatfsEntry "/b" "/z"] (flatfsEntry "/a" "/y") (Error.pathInUse "/a")
    (by simp [scenario4, mountOf, index, List.lookup])
    (by simp [scenario4, mountOf, index, List.lookup])
    (by simp [scenario4Extended, mountOf, index, List.lookup])
    (by simp [scenario4Extended, mountOf, index, List.lookup]) h

/-- C11: a measure node is transparent. With a string `prefix` and a map
`child`, `validate` on the node is `validate` on the child (same error or
success, same context), so `Validate` returns exactly the result of `Validate`
on the child; without a string `prefix`, or without a map `child`, it fails
and the context is left as it was: no child is visited. -/
theorem measure_transparent (cfg : Node) (ht : index cfg "type" = Value.str "measure") :
    (∀ s child, index cfg "prefix" = Value.str s → index cfg "child" = Value.map child →
      (∀ ctx, validate ctx cfg = validate ctx child) ∧ Validate cfg = Validate child) ∧
    ((index cfg "prefix").asString = none →
      ∀ ctx, validate ctx cfg = (some Error.invalidPrefix, ctx)) ∧
    ((index cfg "child").asMap = none →
      ∀ ctx, validate ctx cfg = (some Error.invalidPrefix, ctx) ∨
        validate ctx cfg = (some Error.invalidChild, ctx)) := by
  refine ⟨?_, ?_, ?_⟩
  · intro s child hp hc
    have h : ∀ ctx, validate ctx cfg = validate ctx child := fun ctx => by
      rw [validate_measure _ _ ht, measureValidator_child _ _ _ s hp hc]
    exact ⟨h, by unfold Validate; rw [h]⟩
  · intro hp ctx
    rw [validate_measure _ _ ht, measureValidator_unfold, hp]
  · intro hc ctx
    rw [validate_measure _ _ ht, measureValidator_unfold, hc]
    cases (index cfg "prefix").asString with
    | none => exact Or.inl rfl
    | some s => exact Or.inr rfl

/-- C11 on scenario 6 (valid child) and on a measure node whose `child` is a
sequence. -/
theorem measure_transparent_witness :
    Validate scenario6 = Validate [("type", Value.str "badgerds"), ("path", Value.str "/data/b")] ∧
      validate { usedPaths := [] } measureSeqChild =
        (some Error.invalidChild, { usedPaths := [] }) := by
  constructor
  · exact ((measure_transparent scenario6 (by simp [scenario6, index, List.lookup])).1 "m." _
      (by simp [scenario6, index, List.lookup])
      (by simp [scenario6, index, List.lookup])).2
  · have h := (measure_transparent measureSeqChild
      (by simp [measureSeqChild, index, List.lookup])).2.2
      (by simp [measureSeqChild, index, List.lookup, Value.asMap]) { usedPaths := [] }
    rcases h with h | h
    · rw [validate_measure _ _ (by simp [measureSeqChild, index, List.lookup]),
        measureValidator_unfold] at h
      simp [measureSeqChild, index, List.lookup, Value.asString, Value.asMap] at h
    · exact h

/-- C12: unknown fields are ignored. Setting a field whose name is none of
type, path, compression, mounts, mountpoint, prefix, child to any value, at any
node of the tree (the root or a nested node), leaves the result of `Validate`
unchanged. -/
theorem unknown_fields_ignored (k : String) (v : Value) (t t1 : Node)
    (hk : k ∉ ["type", "path", "compression", "mounts", "mountpoint", "prefix", "child"])
    (h : SetAt k v t t1) :
    Validate t1 = Validate t := by
  unfold Validate
  rw [(setAt_validate k v hk t t1 h).1]

/-- C12 on scenario 4, setting a `comment` field in its second entry. -/
theorem unknown_fields_ignored_witness :
    SetAt "comment" (Value.num 1) scenario4
        (setField scenario4 "mounts" (Value.seq ([flatfsEntry "/a" "/x"] ++
          Value.map (setField [("type", Value.str "flatfs"), ("path", Value.str "/a"),
            ("mountpoint", Value.str "/y")] "comment" (Value.num 1)) :: []))) ∧
      Validate (setField scenario4 "mounts" (Value.seq ([flatfsEntry "/a" "/x"] ++
          Value.map (setField [("type", Value.str "flatfs"), ("path", Value.str "/a"),
            ("mountpoint", Value.str "/y")] "comment" (Value.num 1)) :: [])))
        = Validate scenario4 := by
  have hs : SetAt "comment" (Value.num 1) scenario4
      (setField scenario4 "mounts" (Value.seq ([flatfsEntry "/a" "/x"] ++
        Value.map (setField [("type", Value.str "flatfs"), ("path", Value.str "/a"),
          ("mountpoint", Value.str "/y")] "comment" (Value.num 1)) :: []))) :=
    SetAt.entry scenario4 [flatfsEntry "/a" "/x"] [] _ _
      (by simp [scenario4, mountOf, flatfsEntry, index, List.lookup]) (SetAt.here _)
  exact ⟨hs, unknown_fields_ignored "comment" (Value.num 1) _ _ (by decide) hs⟩

/-- C13: the order of the entries of a mount node does not matter for
acceptance: `Validate` succeeds on a mount node if and only if it succeeds on
the mount node holding a permutation of its `mounts`. -/
theorem mount_order_irrelevant (cfg1 cfg2 : Node) (ms1 ms2 : List Value)
    (ht1 : index cfg1 "type" = Value.str "mount") (hm1 : index cfg1 "mounts" = Value.seq ms1)
    (ht2 : index cfg2 "type" = Value.str "mount") (hm2 : index cfg2 "mounts" = Value.seq ms2)
    (hperm : ms1.Perm ms2) :
    Validate cfg1 = none ↔ Validate cfg2 = none := by
  constructor
  · intro h
    have hw := wellFormed_mount_perm cfg1 cfg2 ms1 ms2 ht1 hm1 ht2 hm2 hperm
      (wellFormed_of_Validate_none h)
    exact Validate_none_of_wellFormed hw.1 hw.2
  · intro h
    have hw := wellFormed_mount_perm cfg2 cfg1 ms2 ms1 ht2 hm2 ht1 hm1 hperm.symm
      (wellFormed_of_Validate_none h)
    exact Validate_none_of_wellFormed hw.1 hw.2

/-- C13 on a mount node with two valid entries and the same node with the
entries swapped. -/
theorem mount_order_irrelevant_witness :
    [flatfsEntry "/a" "/x", flatfsEntry "/b" "/y"].Perm
        [flatfsEntry "/b" "/y", flatfsEntry "/a" "/x"] ∧
      Validate twoMounts = none ∧ Validate twoMountsSwapped = none := by
  have hp : [flatfsEntry "/a" "/x", flatfsEntry "/b" "/y"].Perm
      [flatfsEntry "/b" "/y", flatfsEntry "/a" "/x"] := List.Perm.swap _ _ _
  have h1 : Validate twoMounts = none := by
    apply Validate_of_validate (c := ⟨["/b", "/a"]⟩)
    simp [twoMounts, mountOf, flatfsEntry, validate_flatfs, validate_mount, mountLoop_cons,
      mountLoop_nil, flatfsValidator, checkPath, index, List.lookup, Value.asString,
      Value.asMap]
  have hiff := mount_order_irrelevant twoMounts twoMountsSwapped _ _
    (by simp [twoMounts, mountOf, index, List.lookup])
    (by simp [twoMounts, mountOf, index, List.lookup])
    (by simp [twoMountsSwapped, mountOf, index, List.lookup])
    (by simp [twoMountsSwapped, mountOf, index, List.lookup]) hp
  exact ⟨hp, h1, hiff.mp h1⟩

/-- C14: `Validate` keeps no state between calls. Whatever the memory holds
from earlier calls, a call allocates a fresh context with no claimed path and
touches no other object: its result is the same on every memory, the objects
of earlier calls are left as they were, and in a sequence of calls on one
memory the two calls on the same tree return the same result, whatever calls
are made in between. -/
theorem Validate_stateless (mem : Memory) (cfg : Node) (between : List Node) :
    (∀ mem1 : Memory, (ValidateAt mem1 cfg).1 = (ValidateAt mem cfg).1) ∧
    (∀ ptr, ptr < mem.next → (ValidateAt mem cfg).2.read ptr = mem.read ptr) ∧
    (ValidateRun mem (cfg :: between ++ [cfg])).1 =
      (ValidateAt mem cfg).1 :: (ValidateRun (ValidateAt mem cfg).2 between).1
        ++ [(ValidateAt mem cfg).1] ∧
    (ValidateAt mem cfg).1 = Validate cfg := by
  have hv : ∀ m : Memory, (ValidateAt m cfg).1 = Validate cfg := fun m => by
    rw [ValidateAt_eq]
  refine ⟨fun mem1 => by rw [hv, hv], fun ptr h => ValidateAt_frame mem cfg ptr h, ?_,
    hv mem⟩
  rw [ValidateRun_eq, ValidateRun_eq, hv]
  simp

/-- C14 on the empty memory: scenario 1, then scenario 4, then scenario 1
again. -/
theorem Validate_stateless_witness :
    (ValidateRun Memory.empty [scenario1, scenario4, scenario1]).1 =
      [none, some (Error.pathInUse "/a"), none] := by
  have h1 : Validate scenario1 = none := by
    apply Validate_of_validate (c := ⟨["/data/a"]⟩)
    simp [scenario1, validate_flatfs, flatfsValidator, checkPath, index, List.lookup,
      Value.asString]
  have h4 : Validate scenario4 = some (Error.pathInUse "/a") := by
    apply Validate_of_validate (c := ⟨["/a"]⟩)
    simp [scenario4, mountOf, flatfsEntry, validate_flatfs, validate_mount, mountLoop_cons,
      mountLoop_nil, flatfsValidator, checkPath, index, List.lookup, Value.asString,
      Value.asMap]
  have key := (Validate_stateless Memory.empty scenario1 [scenario4]).2.2
  have hrun : (ValidateRun Memory.empty ([scenario1, scenario4, scenario1])).1 =
      (ValidateAt Memory.empty scenario1).1 ::
        (ValidateRun (ValidateAt Memory.empty scenario1).2 [scenario4]).1
        ++ [(ValidateAt Memory.empty scenario1).1] := key.1
  rw [hrun, key.2, ValidateRun_eq, h1]
  simp [h4]

/-- C15: the path-in-use error names the path. Called with a string `p`
already in the claimed set, `checkPath` fails with the error whose text is
"Path 'p' is already in use", which contains `p`; the errors for two different
paths differ, as values and in their texts. -/
theorem pathInUse_names_path (ctx : validatorContext) (p : String)
    (h : p ∈ ctx.usedPaths) :
    checkPath ctx (Value.str p) = (some (Error.pathInUse p), ctx) ∧
      (Error.pathInUse p).message = "Path '" ++ p ++ "' is already in use" ∧
      Mentions (Error.pathInUse p).message p ∧
      ∀ q, q ≠ p → Error.pathInUse q ≠ Error.pathInUse p ∧
        (Error.pathInUse q).message ≠ (Error.pathInUse p).message := by
  refine ⟨by simp [checkPath, Value.asString, h], rfl, ⟨"Path '", "' is already in use", rfl⟩,
    ?_⟩
  intro q hq
  refine ⟨fun he => hq (Error.pathInUse.inj he), fun hm => hq ?_⟩
  exact string_append_cancel "Path '" "' is already in use" q p hm

/-- C15 on the context holding `/a`. -/
theorem pathInUse_names_path_witness :
    checkPath { usedPaths := ["/a"] } (Value.str "/a")
        = (some (Error.pathInUse "/a"), { usedPaths := ["/a"] }) ∧
      (Error.pathInUse "/a").message = "Path '/a' is already in use" := by
  have h := pathInUse_names_path { usedPaths := ["/a"] } "/a" (by simp)
  exact ⟨h.1, by rw [h.2.1]; decide⟩

/-- C16 (on the code): scenario 5, whose two entries share the mount point
`/x`, and the same node with `/y` in place of `/x` are rejected with one and
the same error, whose text "multiple mounts under one path are not allowed"
contains neither mount point. -/
theorem duplicate_mountPoint_not_named :
    Validate scenario5 = some Error.multipleMounts ∧
      Validate scenario5y = some Error.multipleMounts ∧
      Error.multipleMounts.message = "multiple mounts under one path are not allowed" ∧
      ¬ Mentions Error.multipleMounts.message "/x" ∧
      ¬ Mentions Error.multipleMounts.message "/y" := by
  refine ⟨?_, ?_, rfl, ?_, ?_⟩
  · apply Validate_of_validate (c := ⟨["/a"]⟩)
    simp [scenario5, mountOf, flatfsEntry, validate_flatfs, validate_mount, mountLoop_cons,
      mountLoop_nil, flatfsValidator, checkPath, index, List.lookup, Value.asString,
      Value.asMap]
  · apply Validate_of_validate (c := ⟨["/a"]⟩)
    simp [scenario5y, mountOf, flatfsEntry, validate_flatfs, validate_mount, mountLoop_cons,
      mountLoop_nil, flatfsValidator, checkPath, index, List.lookup, Value.asString,
      Value.asMap]
  · exact not_mentions_of_char _ _ '/' (by decide) (by decide)
  · exact not_mentions_of_char _ _ '/' (by decide) (by decide)

/-- C17: contract of `checkPath` on the explicit context. A string not yet in
`usedPaths` is accepted and the set afterwards is the old set plus that
string; a value that is not a string, or a string already in the set, is
refused and the context is unchanged. -/
theorem checkPath_contract (ctx : validatorContext) (v : Value) :
    (∀ p, v = Value.str p → p ∉ ctx.usedPaths →
      (checkPath ctx v).1 = none ∧
        ∀ q, q ∈ (checkPath ctx v).2.usedPaths ↔ q = p ∨ q ∈ ctx.usedPaths) ∧
    (v.asString = none →
      checkPath ctx v = (some Error.invalidPathType, ctx)) ∧
    (∀ p, v = Value.str p → p ∈ ctx.usedPaths →
      checkPath ctx v = (some (Error.pathInUse p), ctx)) := by
  refine ⟨?_, ?_, ?_⟩
  · rintro p rfl hp
    simp [checkPath, Value.asString, hp]
  · intro hv
    simp [checkPath, hv]
  · rintro p rfl hp
    simp [checkPath, Value.asString, hp]

/-- C17 on the context holding `/a`: `/b` is added, `/a` and a number are
refused. -/
theorem checkPath_contract_witness :
    checkPath { usedPaths := ["/a"] } (Value.str "/b") = (none, { usedPaths := ["/b", "/a"] }) ∧
      checkPath { usedPaths := ["/a"] } (Value.str "/a")
        = (some (Error.pathInUse "/a"), { usedPaths := ["/a"] }) ∧
      checkPath { usedPaths := ["/a"] } (Value.num 7)
        = (some Error.invalidPathType, { usedPaths := ["/a"] }) := by
  have h := checkPath_contract { usedPaths := ["/a"] }
  refine ⟨?_, (h (Value.str "/a")).2.2 "/a" rfl (by simp), (h (Value.num 7)).2.1 rfl⟩
  simp [checkPath, Value.asString]

/-- C18: the walk terminates on every finite tree. The validators call
`validate` only on direct sub-nodes of their node (the map `child` of a
measure node, the map entries of the `mounts` of a mount node); a direct
sub-node is strictly smaller than its node, so the sub-node relation is
well founded, and `validate` returns a result on every context and node. -/
theorem walk_terminates :
    WellFounded Subnode ∧
    (∀ a b, Subnode a b → sizeOf a < sizeOf b) ∧
    (∀ ctx cfg s child, index cfg "type" = Value.str "measure" →
      index cfg "prefix" = Value.str s → index cfg "child" = Value.map child →
      Subnode child cfg ∧ validate ctx cfg = validate ctx child) ∧
    (∀ ctx cfg ms, index cfg "type" = Value.str "mount" →
      index cfg "mounts" = Value.seq ms →
      (∀ m, Value.map m ∈ ms → Subnode m cfg) ∧ validate ctx cfg = mountLoop ctx [] ms) ∧
    (∀ ctx cfg, ∃ r, validate ctx cfg = r) := by
  have hlt : ∀ a b, Subnode a b → sizeOf a < sizeOf b := by
    rintro a b (h | ⟨ms, hms, hm⟩)
    · exact sizeOf_index_asMap b "child" a h
    · exact mem_asSeq_sizeOf b "mounts" ms a hms hm
  refine ⟨?_, hlt, ?_, ?_, fun ctx cfg => ⟨_, rfl⟩⟩
  · exact Subrelation.wf (fun {a b} h => hlt a b h) (InvImage.wf sizeOf Nat.lt_wfRel.wf)
  · intro ctx cfg s child ht hp hc
    refine ⟨Or.inl (asMap_eq_some.mpr hc), ?_⟩
    rw [validate_measure _ _ ht, measureValidator_child _ _ _ s hp hc]
  · intro ctx cfg ms ht hm
    exact ⟨fun m hmem => Or.inr ⟨ms, asSeq_eq_some.mpr hm, hmem⟩, validate_mount _ _ _ ht hm⟩

/-- C19: in a mount node the mount-point checks of an entry come before the
validation of the entry. When the entries before it validate, a map entry
without a string `mountpoint` gives the "'mountpoint' must be a string" error
and a map entry whose `mountpoint` is that of an earlier entry gives the
duplicate-mount-point error, whatever its `type` and other fields are. -/
theorem mountPoint_checked_first (cfg cfgPre : Node) (pre post : List Value) (mount : Node)
    (ht : index cfg "type" = Value.str "mount")
    (hm : index cfg "mounts" = Value.seq (pre ++ Value.map mount :: post))
    (htp : index cfgPre "type" = Value.str "mount")
    (hmp : index cfgPre "mounts" = Value.seq pre)
    (hok : Validate cfgPre = none) :
    ((index mount "mountpoint").asString = none →
      Validate cfg = some Error.invalidMountPoint) ∧
    (∀ s, index mount "mountpoint" = Value.str s → s ∈ mountPointsOf pre →
      Validate cfg = some Error.multipleMounts) := by
  obtain ⟨c, hc⟩ := validate_mount_after_ok cfg cfgPre pre _ ht hm htp hmp hok
  constructor
  · intro hs
    apply Validate_of_validate (c := c)
    rw [hc, mountLoop_cons]
    simp [Value.asMap, hs]
  · intro s hs hdup
    apply Validate_of_validate (c := c)
    rw [hc, mountLoop_cons]
    simp [Value.asMap, asString_eq_some.mpr hs, hdup]

/-- C19 on two mount nodes whose first entry validates and whose second entry
has an unsupported `type` and no `mountpoint`, or no `type` and the mount
point of the first. -/
theorem mountPoint_checked_first_witness :
    Validate (mountOf [flatfsEntry "/a" "/x"]) = none ∧
      Validate secondEntryNoMountPoint = some Error.invalidMountPoint ∧
      Validate secondEntryRepeatsMountPoint = some Error.multipleMounts := by
  have h5 : Validate (mountOf [flatfsEntry "/a" "/x"]) = none := by
    apply Validate_of_validate (c := ⟨["/a"]⟩)
    simp [mountOf, flatfsEntry, validate_flatfs, validate_mount, mountLoop_cons,
      mountLoop_nil, flatfsValidator, checkPath, index, List.lookup, Value.asString,
      Value.asMap]
  refine ⟨h5, ?_, ?_⟩
  · exact (mountPoint_checked_first secondEntryNoMountPoint (mountOf [flatfsEntry "/a" "/x"])
      [flatfsEntry "/a" "/x"] [] [("type", Value.str "s3ds")]
      (by simp [secondEntryNoMountPoint, mountOf, index, List.lookup])
      (by simp [secondEntryNoMountPoint, mountOf, index, List.lookup])
      (by simp [mountOf, index, List.lookup])
      (by simp [mountOf, index, List.lookup]) h5).1
      (by simp [index, List.lookup, Value.asString])
  · exact (mountPoint_checked_first secondEntryRepeatsMountPoint
      (mountOf [flatfsEntry "/a" "/x"])
      [flatfsEntry "/a" "/x"] [] [("mountpoint", Value.str "/x")]
      (by simp [secondEntryRepeatsMountPoint, mountOf, index, List.lookup])
      (by simp [secondEntryRepeatsMountPoint, mountOf, index, List.lookup])
      (by simp [mountOf, index, List.lookup])
      (by simp [mountOf, index, List.lookup]) h5).2 "/x"
      (by simp [index, List.lookup])
      (by simp [mountPointsOf, flatfsEntry, index, List.lookup, Value.asString, Value.asMap])

/-- C20: claimed paths are never released during a walk. After `validate` the
claimed set contains the set before the call; on success it is exactly the
old set with the `path` values of the leaf nodes of the walked tree; and when
a leaf of the tree declares a path that is already in the old set, `validate`
fails. -/
theorem claimed_paths_kept (ctx : validatorContext) (cfg : Node) :
    (∀ p, p ∈ ctx.usedPaths → p ∈ (validate ctx cfg).2.usedPaths) ∧
    ((validate ctx cfg).1 = none →
      ∀ p, p ∈ (validate ctx cfg).2.usedPaths ↔ p ∈ ctx.usedPaths ∨ p ∈ leafPaths cfg) ∧
    ((∃ p, p ∈ leafPaths cfg ∧ p ∈ ctx.usedPaths) → (validate ctx cfg).1 ≠ none) := by
  obtain ⟨v, hv, hn, _, _⟩ := validate_walk cfg ctx
  refine ⟨?_, ?_, ?_⟩
  · intro p hp
    rw [hv]
    exact List.mem_append_right _ hp
  · intro hr p
    obtain ⟨rfl, _, _, _⟩ := hn hr
    rw [hv]
    simp [or_comm]
  · rintro ⟨p, hp, hu⟩ hr
    obtain ⟨_, _, _, hdis⟩ := hn hr
    exact hdis p hp hu

/-- C20 on scenario 1 walked with `/data/a` already claimed. -/
theorem claimed_paths_kept_witness :
    "/data/a" ∈ leafPaths scenario1 ∧
      (validate { usedPaths := ["/data/a"] } scenario1).1 ≠ none := by
  have hl : "/data/a" ∈ leafPaths scenario1 := by
    simp [scenario1, leafPaths_leaf, declaredPath, index, List.lookup, Value.asString]
  exact ⟨hl, (claimed_paths_kept { usedPaths := ["/data/a"] } scenario1).2.2
    ⟨"/data/a", hl, by simp⟩⟩

end Config
